import Mathlib

/-!
Verification of the iZ-lib prime generation library.

This file gives a shallow embedding, in Lean 4, of the core algorithms of the
iZ-lib C library (residue algebra `iZ(x, i) = 6x + i`, the bitmap-based sieves
`sieve_iZ` / `sieve_iZm` / `classic_sieve_eratosthenes`, the VX-segment kernel
`sieve_vx`, the next-prime walker `iZ_next_prime`, the random-prime search loop
of `search_iZprime`, the modular-inverse routines, and the prime-list /
gap-list containers), together with theorems settling the specification claims
about those functions.

Modelling conventions:
* machine integers are embedded as `Nat` / `Int`; where 64-bit wraparound is
  semantically relevant (`solve_for_x`) the reduction `% 2^64` is explicit;
* the bitmap module (`bitmap.c` is not part of the sources, only its header)
  is modelled from the spec, as functions `Nat → Bool`;
* GMP's probabilistic primality test `mpz_probab_prime_p` is an external
  library call; it is modelled by the exact primality predicate
  (`probable_prime`), and theorems that depend on the oracle's answers only
  through the code's control flow quantify over an arbitrary oracle;
* GMP division/remainder follow GMP semantics (`Int.fdiv` for `mpz_fdiv_q`,
  nonnegative `Int.emod` for `mpz_mod`/`mpz_mod_ui`), C `int` division is
  truncated (`Int.div`/`Int.mod`);
* the SHA-256 content hash (OpenSSL, external) is a parameter of the file
  round-trip model.
-/

namespace IZLib

/-- Bitmap modelled from the spec: a bit array is a map from indices to bits.
`bitmap.c` is absent from the sources (only `bitmap.h` and the spec describe
it); capacity bookkeeping is irrelevant to the claims because every access in
the embedded code is in range. A fresh bitmap is all zeroes. -/
def Bitmap : Type := Nat → Bool

/-- Modelled from the spec: `create(size)` returns a zeroed bit array. -/
def bitmap_create (_size : Nat) : Bitmap := fun _ => false

/-- Modelled from the spec: set all bits to 1. -/
def bitmap_set_all (_b : Bitmap) : Bitmap := fun _ => true

/-- Modelled from the spec: read one bit. -/
def bitmap_get_bit (b : Bitmap) (idx : Nat) : Bool := b idx

/-- Modelled from the spec: set one bit to 1. -/
def bitmap_set_bit (b : Bitmap) (idx : Nat) : Bitmap :=
  fun j => if j = idx then true else b j

/-- Modelled from the spec: clear one bit to 0. -/
def bitmap_clear_bit (b : Bitmap) (idx : Nat) : Bitmap :=
  fun j => if j = idx then false else b j

/-- Modelled from the spec: `clear_stride`/`bitmap_clear_mod_p` clears indices
`start, start + p, start + 2p, …` while they are `< limit`. -/
def bitmap_clear_mod_p (b : Bitmap) (p start limit : Nat) : Bitmap :=
  fun j => if start ≤ j ∧ j < limit ∧ (j - start) % p = 0 then false else b j

/-- Modelled from the spec: `duplicate_segment(start, seg_size, k)` makes the
range `[start, start + k*seg_size)` consist of `k` copies of the original
segment `[start, start + seg_size)`. -/
def bitmap_duplicate_segment (b : Bitmap) (start seg k : Nat) : Bitmap :=
  fun j => if start ≤ j ∧ j < start + seg * k then b (start + (j - start) % seg) else b j

/-- Modelled from the spec: `clone` copies the bit content. -/
def bitmap_clone (b : Bitmap) : Bitmap := b

/-- Auxiliary counting loop for the executable integer square root: starting
from candidate `k` with `k * k ≤ n`, increase `k` while `(k+1)^2 ≤ n`. -/
def isqrtAux (n : Nat) : Nat → Nat → Nat
  | k, 0 => k
  | k, fuel + 1 => if (k + 1) * (k + 1) ≤ n then isqrtAux n (k + 1) fuel else k

/-- Executable integer square root, used to embed the C `sqrt` calls on
64-bit values (exact for the integer readings the sieves take). -/
def isqrt (n : Nat) : Nat := isqrtAux n 0 n

theorem isqrtAux_eq (n : Nat) :
    ∀ fuel k, k * k ≤ n → Nat.sqrt n ≤ k + fuel → isqrtAux n k fuel = Nat.sqrt n := by
  intro fuel
  induction fuel with
  | zero =>
    intro k hk hle
    have h1 : k ≤ Nat.sqrt n := Nat.le_sqrt.mpr hk
    simpa [isqrtAux] using le_antisymm h1 (by simpa using hle)
  | succ m ih =>
    intro k hk hle
    by_cases h : (k + 1) * (k + 1) ≤ n
    · simpa [isqrtAux, h] using ih (k + 1) h (by omega)
    · have h2 : Nat.sqrt n < k + 1 := Nat.sqrt_lt.mpr (by omega)
      have h1 : k ≤ Nat.sqrt n := Nat.le_sqrt.mpr hk
      simpa [isqrtAux, h] using le_antisymm h1 (by omega)

theorem isqrt_eq (n : Nat) : isqrt n = Nat.sqrt n :=
  isqrtAux_eq n n 0 (by simp) (by simpa using Nat.sqrt_le_self n)

/-- The residue map `iZ(x, i) = 6x + i` from `iZ.c` (`i ∈ {-1, +1}`, `x ≥ 1`
asserted in the source). -/
def iZ (x : Nat) (i : Int) : Nat := (6 * (x : Int) + i).toNat

theorem iZ_neg_one (x : Nat) : iZ x (-1) = 6 * x - 1 := by
  unfold iZ; omega

theorem iZ_pos_one (x : Nat) : iZ x 1 = 6 * x + 1 := by
  unfold iZ; omega

/-- The `PRIMES_OBJ` container from `primes_obj.c`: an append-only list of
64-bit primes. `p_count` is the length of `p_array`; capacity management
(`primes_obj_init` estimates, `realloc`) has no observable effect on content. -/
structure PRIMES_OBJ where
  p_array : List Nat
deriving DecidableEq, Repr

/-- Number of stored primes (the `p_count` field). -/
def PRIMES_OBJ.p_count (o : PRIMES_OBJ) : Nat := o.p_array.length

/-- `primes_obj_append` from `primes_obj.c`: store `p` and bump the count. -/
def primes_obj_append (o : PRIMES_OBJ) (p : Nat) : PRIMES_OBJ :=
  ⟨o.p_array ++ [p]⟩

/-- State carried by the main loop of `sieve_iZ` in `sieve_iZ.c`: the two
bitmaps and the prime list under construction. -/
structure SvState where
  x5 : Bitmap
  x7 : Bitmap
  primes : PRIMES_OBJ

/-- One iteration (one value of `x`) of the main loop of `sieve_iZ`
(`sieve_iZ.c`, lines 104-132). -/
def sieveIZStep (n_sqrt x_n : Nat) (s : SvState) (x : Nat) : SvState :=
  let s1 :=
    if bitmap_get_bit s.x5 x then
      let p := iZ x (-1)
      let pr := primes_obj_append s.primes p
      if p < n_sqrt then
        { x5 := bitmap_clear_mod_p s.x5 p (p * x + x) x_n
          x7 := bitmap_clear_mod_p s.x7 p (p * x - x) x_n
          primes := pr }
      else { s with primes := pr }
    else s
  if bitmap_get_bit s1.x7 x then
    let p := iZ x 1
    let pr := primes_obj_append s1.primes p
    if p < n_sqrt then
      { x5 := bitmap_clear_mod_p s1.x5 p (p * x - x) x_n
        x7 := bitmap_clear_mod_p s1.x7 p (p * x + x) x_n
        primes := pr }
    else { s1 with primes := pr }
  else s1

/-- The full main loop of `sieve_iZ`: `for (x = 1; x < x_n; x++)`. -/
def sieveIZLoop (n_sqrt x_n : Nat) (init : SvState) : SvState :=
  (List.range' 1 (x_n - 1)).foldl (sieveIZStep n_sqrt x_n) init

/-- The edge-case trim at the end of `sieve_iZ` and `sieve_iZm`: if the last
collected prime exceeds `n`, remove it (`p_count--`). -/
def dropLastIfGt (n : Nat) (o : PRIMES_OBJ) : PRIMES_OBJ :=
  match o.p_array.getLast? with
  | some l => if l > n then ⟨o.p_array.dropLast⟩ else o
  | none => o

/-- `sieve_iZ` from `sieve_iZ.c`: the non-segmented iZ sieve. Returns `none`
for `n < 10` (the C function returns `NULL`). `sqrt(n)` on a `double` is
modelled as the exact integer square root. -/
def sieve_iZ (n : Nat) : Option PRIMES_OBJ :=
  if n < 10 then none
  else
    let x_n := n / 6 + 1
    let x5 := bitmap_set_all (bitmap_create (x_n + 1))
    let x7 := bitmap_set_all (bitmap_create (x_n + 1))
    let n_sqrt := isqrt n + 1
    let s := sieveIZLoop n_sqrt x_n ⟨x5, x7, ⟨[2, 3]⟩⟩
    some (dropLastIfGt n s.primes)

/-- One iteration of the main loop of `classic_sieve_eratosthenes`
(`sieve.c`, lines 72-80). -/
def classicSieveStep (n_sqrt n : Nat) (s : Bitmap × PRIMES_OBJ) (p : Nat) :
    Bitmap × PRIMES_OBJ :=
  if bitmap_get_bit s.1 p then
    (if p ≤ n_sqrt then bitmap_clear_mod_p s.1 p (p * p) (n + 1) else s.1,
     primes_obj_append s.2 p)
  else s

/-- `classic_sieve_eratosthenes` from `sieve.c`: the reference Sieve of
Eratosthenes (`for (p = 2; p <= n; p++)`). -/
def classic_sieve_eratosthenes (n : Nat) : Option PRIMES_OBJ :=
  if n < 10 then none
  else
    let n_bits := bitmap_set_all (bitmap_create (n + 1))
    let n_sqrt := isqrt n
    let s := (List.range' 2 (n - 1)).foldl (classicSieveStep n_sqrt n) (n_bits, ⟨[]⟩)
    some s.2

/-- Model of GMP's `mpz_probab_prime_p(·, TEST_ROUNDS)` (external library):
the exact primality predicate, with the kernel-executable decision
procedure. -/
def probable_prime (n : Nat) : Bool := @decide (Nat.Prime n) (Nat.decidablePrime1 n)

/-- Word bound of the C `uint64_t` type. -/
def U64 : Nat := 2 ^ 64

/-- The normalization step shared verbatim by `solve_for_x`,
`solve_for_x_gmp` and `solve_for_y` (`iZ.c`): `x_p = (p+1)/6`, kept if the
residue class of `p` equals `matrix_id`, else replaced by `p - x_p`. -/
def solveForXp (matrix_id : Int) (p : Nat) : Nat :=
  let x_p := (p + 1) / 6
  let p_id : Int := if p % 6 = 1 then 1 else -1
  if matrix_id = p_id then x_p else p - x_p

/-- `solve_for_x` from `iZ.c` (lines 354-365), with `uint64_t` semantics:
the subtraction `yvx - x_p` wraps modulo `2^64`. -/
def solve_for_x (matrix_id : Int) (p vx y : Nat) : Nat :=
  let x_p2 := solveForXp matrix_id p
  let yvx := vx * y % U64
  let t := ((yvx + U64 - x_p2 % U64) % U64) % p
  p - t

/-- `solve_for_x_gmp` from `iZ.c` (lines 379-401): the same computation with
exact (GMP) arithmetic; `mpz_mod_ui` returns the nonnegative remainder. -/
def solve_for_x_gmp (matrix_id : Int) (p vx y : Nat) : Nat :=
  let x_p2 := solveForXp matrix_id p
  let t := (((vx : Int) * y - x_p2).emod p).toNat
  p - t

/-- Loop of `modular_inverse` from `iZ.c` (lines 474-501), C `int` semantics
(truncated division); one fuel unit per iteration of `while (a > 1)`.
State transition: `q = a / m; (a, m) := (m, a % m); (x0, x1) := (x1 - q*x0, x0)`. -/
def modularInverseLoop : Nat → Int → Int → Int → Int → Int
  | 0, _, _, _, x1 => x1
  | fuel + 1, a, m, x0, x1 =>
    if 1 < a then modularInverseLoop fuel m (Int.tmod a m) (x1 - Int.tdiv a m * x0) x0
    else x1

/-- `modular_inverse` from `iZ.c`: Extended Euclid on C `int`s; `m == 1`
returns 0, a negative coefficient is shifted by `m0` at the end. -/
def modular_inverse (a m : Int) : Int :=
  if m = 1 then 0
  else
    let x1 := modularInverseLoop (a.natAbs + m.natAbs + 1) a m 0 1
    if x1 < 0 then x1 + m else x1

/-- Loop of `modular_inverse_gmp` from `iZ.c` (lines 520-570). The GMP code
reuses the temporary `t`: after `mpz_set(t, x0); mpz_mul(t, q, x0)` the saved
`x0` is overwritten by `q * x0`, so `x1` receives `q * x0` instead of the old
`x0`. The transition is `(x0, x1) := (x1 - q*x0, q*x0)`, faithfully including
that slip. `mpz_fdiv_q` is floor division, `mpz_mod` the nonnegative
remainder. -/
def modularInverseGmpLoop : Nat → Int → Int → Int → Int → Int
  | 0, _, _, _, x1 => x1
  | fuel + 1, a, m, x0, x1 =>
    if 1 < a then
      modularInverseGmpLoop fuel m (a % m) (x1 - Int.fdiv a m * x0) (Int.fdiv a m * x0)
    else x1

/-- `modular_inverse_gmp` from `iZ.c`: the GMP variant of the Extended
Euclidean algorithm as written (including the `x1 := q * x0` slip). -/
def modular_inverse_gmp (a m : Int) : Int :=
  if m = 1 then 0
  else
    let x1 := modularInverseGmpLoop (a.natAbs + m.natAbs + 1) a m 0 1
    if x1 < 0 then x1 + m else x1

/-- The `s_primes` table shared by `compute_limited_vx` and `sieve_iZm`. -/
def sPrimesThirteen : List Nat := [5, 7, 11, 13, 17, 19, 23, 29, 31, 37, 41, 43, 47]

/-- Loop of `compute_limited_vx` from `iZ.c` (lines 219-234):
`while (vx * s_primes[i] < x_n / 2 && i < vx_limit) { vx *= s_primes[i]; i++ }`,
starting at `i = 2`, `vx = 35`. -/
def computeLimitedVxLoop (x_n vx_limit : Nat) : Nat → Nat → Nat → Nat
  | 0, _, vx => vx
  | fuel + 1, i, vx =>
    let p := sPrimesThirteen.getD i 0
    if vx * p < x_n / 2 ∧ i < vx_limit then computeLimitedVxLoop x_n vx_limit fuel (i + 1) (vx * p)
    else vx

/-- `compute_limited_vx` from `iZ.c`. -/
def compute_limited_vx (x_n : Nat) (vx_limit : Nat) : Nat :=
  computeLimitedVxLoop x_n vx_limit (vx_limit + 13) 2 35

/-- `construct_vx2` from `iZ.c` (lines 258-270): seed the 35-wide base
pattern for the primes 5 and 7 by setting exactly the surviving bits. -/
def construct_vx2 (x5 x7 : Bitmap) : Bitmap × Bitmap :=
  (List.range' 1 35).foldl
    (fun (s : Bitmap × Bitmap) i =>
      ((if (i - 1) % 5 ≠ 0 ∧ (i + 1) % 7 ≠ 0 then bitmap_set_bit s.1 i else s.1),
       (if (i + 1) % 5 ≠ 0 ∧ (i - 1) % 7 ≠ 0 then bitmap_set_bit s.2 i else s.2)))
    (x5, x7)

/-- The `s_primes` table of `construct_iZm_segment`, from index 2 on
(5 and 7 are handled by `construct_vx2`). -/
def sPrimesSeg : List Nat := [11, 13, 17, 19, 23, 29, 31, 37]

/-- The `while (vx % s_primes[idx] == 0)` loop of `construct_iZm_segment`
(`iZ.c` lines 299-334): duplicate the current pattern `p` times, then clear the
bit of `p` itself and the two composite strides of `p`, with stride limit
`current_size * p + 1`. -/
def constructSegLoop (vx : Nat) : List Nat → Nat → Bitmap × Bitmap → Bitmap × Bitmap
  | [], _, s => s
  | p :: ps, cs, s =>
    if vx % p = 0 then
      let x := (p + 1) / 6
      let x5 := bitmap_duplicate_segment s.1 1 cs p
      let x7 := bitmap_duplicate_segment s.2 1 cs p
      let cs2 := cs * p
      if p % 6 > 1 then
        constructSegLoop vx ps cs2
          (bitmap_clear_mod_p (bitmap_clear_bit x5 x) p (p * x + x) (cs2 + 1),
           bitmap_clear_mod_p x7 p (p * x - x) (cs2 + 1))
      else
        constructSegLoop vx ps cs2
          (bitmap_clear_mod_p x5 p (p * x - x) (cs2 + 1),
           bitmap_clear_mod_p (bitmap_clear_bit x7 x) p (p * x + x) (cs2 + 1))
    else s

/-- `construct_iZm_segment` from `iZ.c`: the pre-sieved base pattern of
size `vx` for all primes dividing `vx`. -/
def construct_iZm_segment (vx : Nat) (x5 x7 : Bitmap) : Bitmap × Bitmap :=
  constructSegLoop vx sPrimesSeg 35 (construct_vx2 x5 x7)

/-- The prefix loop of `sieve_iZm` that appends the pre-sieved primes
dividing `vx` and counts them (`sieve_iZ.c` lines 200-209); stops at the
first table prime not dividing `vx`. -/
def addPreSieved (vx : Nat) : List Nat → PRIMES_OBJ → Nat × PRIMES_OBJ
  | [], pr => (0, pr)
  | p :: ps, pr =>
    if vx % p = 0 then
      let r := addPreSieved vx ps (primes_obj_append pr p)
      (r.1 + 1, r.2)
    else (0, pr)

/-- One iteration of the first-segment loop of `sieve_iZm`
(`sieve_iZ.c` lines 227-253): like `sieveIZStep` but with root-prime test
`p * p / 6 < vx` and stride limit `vx`. -/
def sieveIZmFirstStep (vx : Nat) (s : SvState) (x : Nat) : SvState :=
  let s1 :=
    if bitmap_get_bit s.x5 x then
      let p := iZ x (-1)
      let pr := primes_obj_append s.primes p
      if p * p / 6 < vx then
        { x5 := bitmap_clear_mod_p s.x5 p (p * x + x) vx
          x7 := bitmap_clear_mod_p s.x7 p (p * x - x) vx
          primes := pr }
      else { s with primes := pr }
    else s
  if bitmap_get_bit s1.x7 x then
    let p := iZ x 1
    let pr := primes_obj_append s1.primes p
    if p * p / 6 < vx then
      { x5 := bitmap_clear_mod_p s1.x5 p (p * x - x) vx
        x7 := bitmap_clear_mod_p s1.x7 p (p * x + x) vx
        primes := pr }
    else { s1 with primes := pr }
  else s1

/-- The per-segment root-prime marking loop of `sieve_iZm`
(`sieve_iZ.c` lines 272-283), with its early exit `p*p/6 > yvx + limit`. -/
def sieveIZmMarkLoop (vx y limit : Nat) : List Nat → Bitmap × Bitmap → Bitmap × Bitmap
  | [], s => s
  | p :: ps, s =>
    if p * p / 6 > y * vx + limit then s
    else
      sieveIZmMarkLoop vx y limit ps
        (bitmap_clear_mod_p s.1 p (solve_for_x (-1) p vx y) limit,
         bitmap_clear_mod_p s.2 p (solve_for_x 1 p vx y) limit)

/-- The per-segment collection loop of `sieve_iZm`
(`sieve_iZ.c` lines 286-293). -/
def sieveIZmCollect (yvx limit : Nat) (s : Bitmap × Bitmap) (pr : PRIMES_OBJ) : PRIMES_OBJ :=
  (List.range' 2 (limit - 1)).foldl
    (fun pr x =>
      let pr2 := if bitmap_get_bit s.1 x then primes_obj_append pr (iZ (x + yvx) (-1)) else pr
      if bitmap_get_bit s.2 x then primes_obj_append pr2 (iZ (x + yvx) 1) else pr2)
    pr

/-- One full `y`-segment of `sieve_iZm` (`sieve_iZ.c` lines 261-296): reclone
the base pattern, mark composites of the root primes collected so far
(from index `start_i`), collect the survivors. -/
def sieveIZmSegStep (vx x_n max_y start_i : Nat) (base : Bitmap × Bitmap)
    (pr : PRIMES_OBJ) (y : Nat) : PRIMES_OBJ :=
  let limit := if y = max_y then x_n % vx else vx
  let s := sieveIZmMarkLoop vx y limit (pr.p_array.drop start_i)
    (bitmap_clone base.1, bitmap_clone base.2)
  sieveIZmCollect (y * vx) limit s pr

/-- `sieve_iZm` from `sieve_iZ.c`: the segmented iZ sieve; delegates to
`sieve_iZ` for `n < 1000`. -/
def sieve_iZm (n : Nat) : Option PRIMES_OBJ :=
  if n < 1000 then sieve_iZ n
  else
    let x_n := n / 6 + 1
    let vx := compute_limited_vx x_n 6
    let pre := addPreSieved vx (sPrimesThirteen.take 6) ⟨[2, 3]⟩
    let start_i := 2 + pre.1
    let base := construct_iZm_segment vx (bitmap_create (vx + 10)) (bitmap_create (vx + 10))
    let s0 := (List.range' 2 (vx - 1)).foldl (sieveIZmFirstStep vx)
      ⟨bitmap_clone base.1, bitmap_clone base.2, pre.2⟩
    let max_y := x_n / vx
    let pr2 := (List.range' 1 max_y).foldl (sieveIZmSegStep vx x_n max_y start_i base) s0.primes
    some (dropLastIfGt n pr2)

/-- The `VX_OBJ` container from `vx_obj.c` / `vx_obj.h`: slab size `vx`, slab
index `y` (a numeric string in C, embedded as the number it denotes), and the
ordered gap list. `GAP_TYPE` is `uint16_t`, so stored gaps live modulo
`2^16`; `p_count` is the length of `p_gaps`. The performance counters
`bit_ops`/`p_test_ops` and the hash field are not modelled (observational). -/
structure VX_OBJ where
  vx : Nat
  y : Nat
  p_gaps : List Nat
deriving DecidableEq, Repr

/-- Number of stored gaps (the `p_count` field of `VX_OBJ`). -/
def VX_OBJ.p_count (o : VX_OBJ) : Nat := o.p_gaps.length

/-- `vx_init` from `vx_obj.c`: fresh gap list for slab `(vx, y)`. -/
def vx_init (vx : Nat) (y : Nat) : VX_OBJ := ⟨vx, y, []⟩

/-- `vx_append_p_gap` from `vx_obj.c`: `p_gaps[p_count++] = gap` where the
slot has type `GAP_TYPE = uint16_t`, so the stored value is the gap reduced
modulo `2^16`. -/
def vx_append_p_gap (o : VX_OBJ) (gap : Nat) : VX_OBJ :=
  { o with p_gaps := o.p_gaps ++ [gap % 65536] }

/-- The `VX_ASSETS` bundle from `vx_obj.c`: slab size, root primes, and the
two pre-sieved base bitmaps. -/
structure VX_ASSETS where
  vx : Nat
  root_primes : PRIMES_OBJ
  base_x5 : Bitmap
  base_x7 : Bitmap

/-- `vx_assets_init` from `vx_obj.c`: `root_primes = sieve_iZ(vx)` (NULL when
that fails) and the base pattern from `construct_iZm_segment`. -/
def vx_assets_init (vx : Nat) : Option VX_ASSETS :=
  (sieve_iZ vx).map fun rp =>
    let base := construct_iZm_segment vx (bitmap_create (vx + 10)) (bitmap_create (vx + 10))
    ⟨vx, rp, base.1, base.2⟩

/-- The root-prime marking loop of `sieve_vx` (`sieve_iZ.c` lines 407-425):
iterate the root primes from index 2; skip `p` dividing `vx`; when not in
large mode, break at the first `p` above `root_limit`; otherwise clear the two
strides found by `solve_for_x_gmp`, with stride limit `vx`. -/
def sieveVXMark (vx root_limit : Nat) (large : Bool) (y : Nat) :
    List Nat → Bitmap × Bitmap → Bitmap × Bitmap
  | [], s => s
  | p :: ps, s =>
    if vx % p = 0 then sieveVXMark vx root_limit large y ps s
    else if ¬large ∧ root_limit < p then s
    else
      sieveVXMark vx root_limit large y ps
        (bitmap_clear_mod_p s.1 p (solve_for_x_gmp (-1) p vx y) vx,
         bitmap_clear_mod_p s.2 p (solve_for_x_gmp 1 p vx y) vx)

/-- The gap-emission loop of `sieve_vx` (`sieve_iZ.c` lines 434-485):
`for (x = 1; x <= vx; x++)`, accumulating `gap += 4` before the `x5` check and
`gap += 2` before the `x7` check; a surviving bit is emitted when not in large
mode, or when the probabilistic primality test accepts it. -/
def sieveVXEmit (probPrime : Nat → Bool) (large : Bool) (x5 x7 : Bitmap) (vx yvx : Nat) :
    Nat → Nat → Nat → VX_OBJ → VX_OBJ
  | 0, _, _, o => o
  | fuel + 1, x, gap, o =>
    if x ≤ vx then
      let gap1 := gap + 4
      let hit5 := bitmap_get_bit x5 x ∧ (¬large ∨ probPrime (iZ (yvx + x) (-1)))
      let o1 := if hit5 then vx_append_p_gap o gap1 else o
      let gap2 := if hit5 then 0 else gap1
      let gap3 := gap2 + 2
      let hit7 := bitmap_get_bit x7 x ∧ (¬large ∨ probPrime (iZ (yvx + x) 1))
      let o2 := if hit7 then vx_append_p_gap o1 gap3 else o1
      let gap4 := if hit7 then 0 else gap3
      sieveVXEmit probPrime large x5 x7 vx yvx fuel (x + 1) gap4 o2
    else o

/-- `sieve_vx` from `sieve_iZ.c`: the VX-segment kernel. The probabilistic
primality test is the parameter `probPrime` (invoked only in large mode). -/
def sieve_vx (probPrime : Nat → Bool) (vx_obj : VX_OBJ) (vx_assets : VX_ASSETS) : VX_OBJ :=
  let vx := vx_obj.vx
  let y := vx_obj.y
  let yvx := y * vx
  let root_limit := isqrt (iZ ((y + 1) * vx) 1)
  let is_large : Bool := decide (vx < root_limit)
  let s := sieveVXMark vx root_limit is_large y (vx_assets.root_primes.p_array.drop 2)
    (bitmap_clone vx_assets.base_x5, bitmap_clone vx_assets.base_x7)
  sieveVXEmit probPrime is_large s.1 s.2 vx yvx vx 1 0 vx_obj

/-- The combination `vx_init` / `vx_assets_init` / `sieve_vx` exactly as the
callers in `sieve_vx6_range` and the test harness compose them, returning the
final gap list; `none` when asset construction fails. -/
def sieve_vx_run (vx y : Nat) : Option (List Nat) :=
  (vx_assets_init vx).map fun a => (sieve_vx probable_prime (vx_init vx y) a).p_gaps

/-- Prefix-sum walk of a gap list from `base`, the reading used throughout the
spec: the primes a slab denotes are `base` plus the running sums of the gaps. -/
def vxWalk (base : Nat) (gaps : List Nat) : List Nat :=
  (gaps.foldl (fun (s : Nat × List Nat) g => (s.1 + g, s.2 ++ [s.1 + g])) (base, [])).2

/-- State of the candidate loop of `search_iZprime` (`prime_gen.c` lines
120-135): the found flag, the attempt counter, and the current candidate
(`tmp`). -/
structure SearchLoopState where
  found : Bool
  attempts : Nat
  c : Nat
deriving DecidableEq, Repr

/-- The `attempts_limit` of `search_iZprime`. -/
def attempts_limit : Nat := 1000000

/-- One iteration of `while (!found && attempts < attempts_limit)` in
`search_iZprime`: the body advances `tmp += vx` and runs the primality test;
the source never increments `attempts`. When the guard fails the state is
returned unchanged. -/
def searchLoopStep (oracle : Nat → Bool) (vx : Nat) (s : SearchLoopState) : SearchLoopState :=
  if ¬s.found ∧ s.attempts < attempts_limit then
    { found := oracle (s.c + vx), attempts := s.attempts, c := s.c + vx }
  else s

/-- The loop guard of `search_iZprime`'s candidate loop: the loop has
terminated when a prime was found or the attempt cap is reached. -/
def searchLoopDone (s : SearchLoopState) : Bool :=
  s.found || decide (attempts_limit ≤ s.attempts)

/-- The inner `for` loop of the forward branch of `iZ_next_prime`
(`prime_gen.c` lines 362-387): scan `x` from `start_x` to `vx`, testing the
`x5` candidate and then the `x7` candidate of each surviving bit. -/
def nextPrimeInnerF (isP : Nat → Bool) (x5 x7 : Bitmap) (vx yvx : Nat) :
    Nat → Nat → Option Nat
  | 0, _ => none
  | fuel + 1, x =>
    if x < vx + 1 then
      if bitmap_get_bit x5 x ∧ isP (iZ (yvx + x) (-1)) then some (iZ (yvx + x) (-1))
      else if bitmap_get_bit x7 x ∧ isP (iZ (yvx + x) 1) then some (iZ (yvx + x) 1)
      else nextPrimeInnerF isP x5 x7 vx yvx fuel (x + 1)
    else none

/-- The outer `while (!found && i < max_i)` loop of the forward branch of
`iZ_next_prime`: scan up to `fuel` segments, restarting each later segment at
`x = 1`. -/
def nextPrimeSegLoopF (isP : Nat → Bool) (x5 x7 : Bitmap) (vx : Nat) :
    Nat → Nat → Nat → Option Nat
  | 0, _, _ => none
  | fuel + 1, yvx, start_x =>
    match nextPrimeInnerF isP x5 x7 vx yvx (vx + 1) start_x with
    | some p => some p
    | none => nextPrimeSegLoopF isP x5 x7 vx fuel (yvx + vx) 1

/-- The inner `for` loop of the backward branch of `iZ_next_prime`
(`prime_gen.c` lines 397-422): scan `x` downward while `x > 1`, testing the
`x7` candidate before the `x5` candidate. -/
def nextPrimeInnerB (isP : Nat → Bool) (x5 x7 : Bitmap) (yvx : Nat) :
    Nat → Option Nat
  | 0 => none
  | 1 => none
  | x + 2 =>
    if bitmap_get_bit x7 (x + 2) ∧ isP (iZ (yvx + (x + 2)) 1) then some (iZ (yvx + (x + 2)) 1)
    else if bitmap_get_bit x5 (x + 2) ∧ isP (iZ (yvx + (x + 2)) (-1)) then
      some (iZ (yvx + (x + 2)) (-1))
    else nextPrimeInnerB isP x5 x7 yvx (x + 1)

/-- The outer segment loop of the backward branch of `iZ_next_prime`
(`yvx` decreases by `vx` per segment, later segments restart at `x = vx`). -/
def nextPrimeSegLoopB (isP : Nat → Bool) (x5 x7 : Bitmap) (vx : Nat) :
    Nat → Nat → Nat → Option Nat
  | 0, _, _ => none
  | fuel + 1, yvx, start_x =>
    match nextPrimeInnerB isP x5 x7 yvx start_x with
    | some p => some p
    | none => nextPrimeSegLoopB isP x5 x7 vx fuel (yvx - vx) vx

/-- `iZ_next_prime` from `prime_gen.c`: fast-path edge cases on `base mod 6`,
then a walk over pre-sieved `vx = 5005` segments; at most `max_i = 1000`
segments are searched. The probabilistic primality test is the parameter
`isP`. -/
def iZ_next_prime (isP : Nat → Bool) (base : Nat) (forward : Bool) : Option Nat :=
  let vx := 5 * 7 * 11 * 13
  if forward ∧ base % 6 = 5 ∧ isP (base + 2) then some (base + 2)
  else if (¬forward) ∧ base % 6 = 1 ∧ isP (base - 2) then some (base - 2)
  else
    let tmp := if forward ∧ base % 6 = 5 then base + 2
      else if (¬forward) ∧ base % 6 = 1 then base - 2 else base
    let seg := construct_iZm_segment vx (bitmap_create (vx + 10)) (bitmap_create (vx + 10))
    let y := base / (6 * vx)
    let yvx := y * vx
    let x_p := tmp / 6
    let max_i := 1000
    if forward then nextPrimeSegLoopF isP seg.1 seg.2 vx max_i yvx (x_p % vx + 1)
    else nextPrimeSegLoopB isP seg.1 seg.2 vx max_i yvx (x_p % vx - 1)

/-- Little-endian byte serialization of one `uint64_t`, as `fwrite` emits it
on the host (host byte order per the spec). -/
def u64Bytes (v : Nat) : List Nat :=
  [v % 256, v / 256 % 256, v / 256 ^ 2 % 256, v / 256 ^ 3 % 256,
   v / 256 ^ 4 % 256, v / 256 ^ 5 % 256, v / 256 ^ 6 % 256, v / 256 ^ 7 % 256]

/-- Reassemble one `uint64_t` from its little-endian bytes. -/
def bytesToU64 (bs : List Nat) : Nat := bs.foldr (fun b acc => b + 256 * acc) 0

/-- Body of the prime-list file: the `p_count` 64-bit elements, byte by
byte. -/
def bytesOfPrimes (l : List Nat) : List Nat := (l.map u64Bytes).flatten

/-- Parse `count` 64-bit values back out of a byte body; fails unless the
body has exactly `8 * count` bytes. -/
def parseU64s : Nat → List Nat → Option (List Nat)
  | 0, bs => if bs.isEmpty then some [] else none
  | n + 1, bs =>
    if bs.length < 8 then none
    else (parseU64s n (bs.drop 8)).map fun l => bytesToU64 (bs.take 8) :: l

/-- Modelled from the spec: the on-disk layout written by
`primes_obj_write_file` (file I/O itself is peripheral): header `p_count`,
body of `p_count` 64-bit elements, 32-byte trailer hash. The SHA-256 function
(OpenSSL, external) is the parameter `h` of the I/O pair. -/
structure PRIMES_FILE where
  p_count : Nat
  body : List Nat
  hash : List Nat
deriving DecidableEq, Repr

/-- `primes_obj_write_file` from `primes_obj.c`: compute the content hash of
the element bytes, then write header, body and hash. -/
def primes_obj_write_file (h : List Nat → List Nat) (o : PRIMES_OBJ) : PRIMES_FILE :=
  ⟨o.p_count, bytesOfPrimes o.p_array, h (bytesOfPrimes o.p_array)⟩

/-- `primes_obj_read_file` from `primes_obj.c`: read `p_count`
(`primes_obj_init` fails on a non-positive count), read the body, recompute
the hash over the bytes read and compare with the stored hash
(`primes_obj_verify_hash`); on mismatch the partially read container is
destroyed and `NULL` returned. -/
def primes_obj_read_file (h : List Nat → List Nat) (f : PRIMES_FILE) : Option PRIMES_OBJ :=
  if f.p_count = 0 then none
  else
    match parseU64s f.p_count f.body with
    | none => none
    | some l => if h f.body = f.hash then some ⟨l⟩ else none

/-- Alter a single byte of the stored body of a prime-list file. -/
def tamperByte (f : PRIMES_FILE) (i b : Nat) : PRIMES_FILE :=
  { f with body := f.body.set i b }

/-- Claim C1: for every `n ∈ [10, 10^8]` the sieves `sieve_iZ`, `sieve_iZm`
and the classical Eratosthenes reference are claimed to return identical
prime lists. This fails at `n = 11`: the main loop of `sieve_iZ` runs
`x < x_n = n/6 + 1` and never reaches the index of `n` itself when
`n ≡ 5 (mod 6)`, so the prime `11` is missing from `sieve_iZ(11)` (and from
the delegating `sieve_iZm(11)`), while the classical sieve includes it —
contradicting `sieve_iZ`'s own contract of returning the primes up to `n`. -/
theorem C1_sieves_disagree_at_11 :
    (sieve_iZ 11).map PRIMES_OBJ.p_array = some [2, 3, 5, 7] ∧
    (sieve_iZm 11).map PRIMES_OBJ.p_array = some [2, 3, 5, 7] ∧
    (classic_sieve_eratosthenes 11).map PRIMES_OBJ.p_array = some [2, 3, 5, 7, 11] ∧
    Nat.Prime 11 := by
  refine ⟨by decide, by decide, by decide, by norm_num⟩

/-- Claim C2: `search_iZprime` is claimed to perform at most `1,000,000`
candidate iterations and return "not found" when the cap is exhausted. In the
source the loop guard reads `attempts < attempts_limit` but `attempts` is
never incremented, so with an oracle that never accepts (no probable prime
in the progression within any bound) the guard still holds after arbitrarily
many iterations — in particular after `1,000,000` — and the loop never
terminates via the cap: the state after `k` body iterations still has
`attempts = 0` and the loop is not done. -/
theorem C2_search_loop_cap_never_binds (c0 vx k : Nat) :
    (searchLoopStep (fun _ => false) vx)^[k] ⟨false, 0, c0⟩ =
      ⟨false, 0, c0 + k * vx⟩ ∧
    searchLoopDone ((searchLoopStep (fun _ => false) vx)^[k] ⟨false, 0, c0⟩) = false := by
  have main : ∀ k c0, (searchLoopStep (fun _ => false) vx)^[k] ⟨false, 0, c0⟩ =
      ⟨false, 0, c0 + k * vx⟩ := by
    intro k
    induction k with
    | zero => intro c0; simp
    | succ m ih =>
      intro c0
      rw [Function.iterate_succ_apply]
      have hstep : searchLoopStep (fun _ => false) vx ⟨false, 0, c0⟩ =
          ⟨false, 0, c0 + vx⟩ := by
        simp [searchLoopStep, attempts_limit]
      rw [hstep, ih]
      congr 1
      ring
  refine ⟨main k c0, ?_⟩
  rw [main k c0]
  simp [searchLoopDone, attempts_limit]

/-- Claim C4: the VX kernel is claimed to emit a gap list whose walk from
`base = iZ(y*vx, +1)` consists of (probable) primes, fully certified by the
deterministic sieve when the slab is small. This fails: `sieve_vx` clears the
root-prime strides with limit `vx` (exclusive) but the emission pass scans
`x ≤ vx` inclusive, so the boundary candidate of the slab is never sieved.
With matching assets for `vx = 35` at slab `y = 0` (a small slab:
`root_limit = 14 ≤ 35`, so no primality test backs the sieve), the emitted
walk contains `209 = 11 * 19`, a composite. -/
theorem C4_sieve_vx_emits_composite_209 :
    sieve_vx_run 35 0 = some
      [16, 2, 4, 6, 2, 6, 4, 2, 4, 6, 6, 2, 6, 4, 2, 6, 4, 6, 8, 4, 2,
       4, 2, 4, 14, 4, 6, 2, 10, 2, 6, 6, 4, 6, 6, 2, 10, 2, 4, 2, 10, 2] ∧
    209 ∈ vxWalk (iZ (0 * 35) 1)
      [16, 2, 4, 6, 2, 6, 4, 2, 4, 6, 6, 2, 6, 4, 2, 6, 4, 6, 8, 4, 2,
       4, 2, 4, 14, 4, 6, 2, 10, 2, 6, 6, 4, 6, 6, 2, 10, 2, 4, 2, 10, 2] ∧
    ¬ Nat.Prime 209 ∧ isqrt (iZ ((0 + 1) * 35) 1) ≤ 35 := by
  refine ⟨by decide, by decide, by norm_num, by decide⟩

/-- Claim C8 (code bug): `modular_inverse_gmp` is claimed to compute the same
modular inverse as `modular_inverse` via the Extended Euclidean algorithm. The
GMP variant overwrites its temporary (`mpz_set(t, x0)` is dead, then
`mpz_mul(t, q, x0); ... mpz_set(x1, t)`), so `x1` receives `q * x0` instead of
the previous `x0`. At `a = 3, m = 7` (coprime) the C `int` version returns the
correct inverse `5`, while the GMP version returns `1`, which is not an
inverse of `3` modulo `7`. -/
theorem C8_modular_inverse_gmp_broken :
    modular_inverse 3 7 = 5 ∧ (5 * 3) % 7 = 1 ∧
    modular_inverse_gmp 3 7 = 1 ∧ (1 * 3) % 7 ≠ 1 := by
  refine ⟨by decide, by decide, by decide, by decide⟩

/-- Claim C10: every gap appended by `vx_append_p_gap` goes into a `uint16_t`
slot: the stored value is the accumulated gap reduced modulo `2^16` (an
oversized gap is silently wrapped, the append never rejects), and therefore
every stored gap is at most `65535`. -/
theorem C10_gap_stored_mod_2_16 (o : VX_OBJ) (g : Nat)
    (hbound : ∀ e ∈ o.p_gaps, e ≤ 65535) :
    (vx_append_p_gap o g).p_gaps = o.p_gaps ++ [g % 65536] ∧
    ∀ e ∈ (vx_append_p_gap o g).p_gaps, e ≤ 65535 := by
  refine ⟨rfl, ?_⟩
  intro e he
  simp only [vx_append_p_gap, List.mem_append, List.mem_singleton] at he
  rcases he with he | he
  · exact hbound e he
  · subst he
    have : g % 65536 < 65536 := Nat.mod_lt _ (by norm_num)
    omega

theorem prime_ge5_mod6 (p : Nat) (hp : Nat.Prime p) (h5 : 5 ≤ p) :
    p % 6 = 1 ∨ p % 6 = 5 := by
  have h2 : ¬ 2 ∣ p := by
    intro h
    rcases Nat.Prime.eq_one_or_self_of_dvd hp 2 h with h' | h' <;> omega
  have h3 : ¬ 3 ∣ p := by
    intro h
    rcases Nat.Prime.eq_one_or_self_of_dvd hp 3 h with h' | h' <;> omega
  omega

theorem solveForXp_eq (id : Int) (p : Nat) :
    solveForXp id p =
      if id = (if p % 6 = 1 then (1 : Int) else -1) then (p + 1) / 6
      else p - (p + 1) / 6 := rfl

theorem solveForXp_le (id : Int) (p : Nat) : solveForXp id p ≤ p := by
  rw [solveForXp_eq]
  split <;> split <;> omega

/-- The normalized `x_p` satisfies `6 * x_p + matrix_id ≡ 0 (mod p)`: the
index `x_p` is where the residue class `matrix_id` meets a multiple of `p`. -/
theorem solveForXp_dvd (id : Int) (hid : id = 1 ∨ id = -1) (p : Nat)
    (hp : Nat.Prime p) (h5 : 5 ≤ p) :
    (p : Int) ∣ 6 * (solveForXp id p : Int) + id := by
  rcases prime_ge5_mod6 p hp h5 with h6 | h6
  · have hpid : (if p % 6 = 1 then (1 : Int) else -1) = 1 := if_pos h6
    rcases hid with rfl | rfl
    · rw [solveForXp_eq, hpid, if_pos rfl]
      refine ⟨1, ?_⟩
      omega
    · rw [solveForXp_eq, hpid, if_neg (by norm_num)]
      refine ⟨5, ?_⟩
      omega
  · have hpid : (if p % 6 = 1 then (1 : Int) else -1) = -1 := if_neg (by omega)
    rcases hid with rfl | rfl
    · rw [solveForXp_eq, hpid, if_neg (by norm_num)]
      refine ⟨5, ?_⟩
      omega
    · rw [solveForXp_eq, hpid, if_pos rfl]
      refine ⟨1, ?_⟩
      omega

theorem iZ_cast (x : Nat) (id : Int) (hid : id = 1 ∨ id = -1) (hx : 1 ≤ x) :
    ((iZ x id : Nat) : Int) = 6 * x + id := by
  unfold iZ
  rcases hid with rfl | rfl <;> omega

/-- Claim C5 (amended): `solve_for_x_gmp(matrix_id, p, vx, y)` returns the
smallest `x ∈ [1, p]` with `p ∣ iZ(y*vx + x, matrix_id)`, for every prime
`p ≥ 5` and every `y ≥ 0`; and `solve_for_x` agrees with it whenever
`x_p ≤ vx*y < 2^64` (so in particular for every `y ≥ 1` with `p ≤ vx`). At
`vx*y < x_p` the `uint64` subtraction in `solve_for_x` wraps and the two
differ (see the counterexample). -/
theorem C5_solve_for_x_amended (id : Int) (hid : id = 1 ∨ id = -1) (p vx y : Nat)
    (hp : Nat.Prime p) (hp5 : 5 ≤ p) :
    (1 ≤ solve_for_x_gmp id p vx y ∧ solve_for_x_gmp id p vx y ≤ p ∧
     p ∣ iZ (y * vx + solve_for_x_gmp id p vx y) id ∧
     ∀ s, 1 ≤ s → s < solve_for_x_gmp id p vx y → ¬ p ∣ iZ (y * vx + s) id) ∧
    (solveForXp id p ≤ vx * y → vx * y < 2 ^ 64 →
      solve_for_x id p vx y = solve_for_x_gmp id p vx y) := by
  have hppos : 0 < p := by omega
  have hpz : ((p : Int)) ≠ 0 := by exact_mod_cast hppos.ne'
  have hxple : solveForXp id p ≤ p := solveForXp_le id p
  have hdvd6 : (p : Int) ∣ 6 * (solveForXp id p : Int) + id := solveForXp_dvd id hid p hp hp5
  have hgmp : solve_for_x_gmp id p vx y =
      p - ((((vx : Int) * y - solveForXp id p) % p)).toNat := rfl
  obtain ⟨t, ht_def, ht0, htlt, hEti⟩ :
      ∃ t : Nat, solve_for_x_gmp id p vx y = p - t ∧ 0 ≤ t ∧ t < p ∧
        (p : Int) ∣ ((vx : Int) * y - solveForXp id p) - t := by
    refine ⟨((((vx : Int) * y - solveForXp id p) % p)).toNat, hgmp, Nat.zero_le _, ?_, ?_⟩
    · have h1 : ((vx : Int) * y - solveForXp id p) % p < p :=
        Int.emod_lt_of_pos _ (by exact_mod_cast hppos)
      have h0 : 0 ≤ ((vx : Int) * y - solveForXp id p) % p := Int.emod_nonneg _ hpz
      omega
    · have h0 : 0 ≤ ((vx : Int) * y - solveForXp id p) % p := Int.emod_nonneg _ hpz
      rw [Int.toNat_of_nonneg h0]
      refine ⟨((vx : Int) * y - solveForXp id p) / p, ?_⟩
      have := Int.emod_add_ediv ((vx : Int) * y - solveForXp id p) (p : Int)
      linarith
  have hr1 : 1 ≤ solve_for_x_gmp id p vx y := by omega
  have hrp : solve_for_x_gmp id p vx y ≤ p := by omega
  have hvalr : ((iZ (y * vx + solve_for_x_gmp id p vx y) id : Nat) : Int) =
      6 * ((y : Int) * vx + solve_for_x_gmp id p vx y) + id := by
    rw [iZ_cast _ id hid (by omega)]
    push_cast
    ring
  have hdvdval : (p : Int) ∣ ((iZ (y * vx + solve_for_x_gmp id p vx y) id : Nat) : Int) := by
    rw [hvalr]
    have hcastr : ((solve_for_x_gmp id p vx y : Nat) : Int) = (p : Int) - t := by
      rw [ht_def]
      omega
    rw [hcastr]
    have hsplit : 6 * ((y : Int) * vx + ((p : Int) - t)) + id =
        (6 * (solveForXp id p : Int) + id) +
          6 * (((vx : Int) * y - solveForXp id p) - t) + 6 * (p : Int) := by
      ring
    rw [hsplit]
    exact dvd_add (dvd_add hdvd6 (Dvd.dvd.mul_left hEti 6)) ⟨6, by ring⟩
  have hmain : p ∣ iZ (y * vx + solve_for_x_gmp id p vx y) id := by
    exact_mod_cast hdvdval
  refine ⟨⟨hr1, hrp, hmain, ?_⟩, ?_⟩
  · intro s hs1 hsr hdvds
    have hdvdsI : (p : Int) ∣ ((iZ (y * vx + s) id : Nat) : Int) := by exact_mod_cast hdvds
    have hdiff : (p : Int) ∣ 6 * ((solve_for_x_gmp id p vx y : Int) - s) := by
      have h1 := dvd_sub hdvdval hdvdsI
      have hval2 : ((iZ (y * vx + s) id : Nat) : Int) = 6 * ((y : Int) * vx + s) + id := by
        rw [iZ_cast _ id hid (by omega)]
        push_cast
        ring
      rw [hvalr, hval2] at h1
      have heq : 6 * ((y : Int) * vx + solve_for_x_gmp id p vx y) + id -
          (6 * ((y : Int) * vx + s) + id) = 6 * ((solve_for_x_gmp id p vx y : Int) - s) := by
        ring
      rwa [heq] at h1
    have hpI : Prime ((p : Int)) := Nat.prime_iff_prime_int.mp hp
    rcases hpI.dvd_mul.mp hdiff with h6' | hrs
    · have h6N : p ∣ 6 := by exact_mod_cast h6'
      have h23 : p ∣ 2 * 3 := by simpa using h6N
      rcases hp.dvd_mul.mp h23 with h | h
      · have := Nat.le_of_dvd (by norm_num) h
        omega
      · have := Nat.le_of_dvd (by norm_num) h
        omega
    · have hpos : (0 : Int) < (solve_for_x_gmp id p vx y : Int) - s := by
        have hcast : (s : Int) < solve_for_x_gmp id p vx y := by exact_mod_cast hsr
        omega
      have := Int.le_of_dvd hpos hrs
      omega
  · intro hple hlt
    have hU : U64 = 2 ^ 64 := rfl
    have hxpe : solveForXp id p % U64 = solveForXp id p := Nat.mod_eq_of_lt (by omega)
    have hyv : vx * y % U64 = vx * y := Nat.mod_eq_of_lt (by omega)
    have hsolve : solve_for_x id p vx y =
        p - ((vx * y % U64 + U64 - solveForXp id p % U64) % U64) % p := rfl
    rw [hsolve, hgmp]
    have hinner : vx * y % U64 + U64 - solveForXp id p % U64 = U64 + (vx * y - solveForXp id p) := by
      rw [hxpe, hyv]
      omega
    have hmod1 : (U64 + (vx * y - solveForXp id p)) % U64 = vx * y - solveForXp id p := by
      rw [Nat.add_mod_left]
      exact Nat.mod_eq_of_lt (by omega)
    rw [hinner, hmod1]
    have hcast : (vx : Int) * y - solveForXp id p = ((vx * y - solveForXp id p : Nat) : Int) := by
      omega
    rw [hcast, ← Int.natCast_mod, Int.toNat_natCast]

/-- Witness for the amended C5 at `matrix_id = -1`, `p = 23`,
`vx = 1,616,615`, `y = 1` (`x_p = 4 ≤ vx*y`). -/
theorem C5_solve_for_x_amended_witness :
    (((-1 : Int) = 1 ∨ (-1 : Int) = -1) ∧ Nat.Prime 23 ∧ 5 ≤ 23 ∧
      solveForXp (-1) 23 ≤ 1616615 * 1 ∧ 1616615 * 1 < 2 ^ 64) ∧
    ((1 ≤ solve_for_x_gmp (-1) 23 1616615 1 ∧ solve_for_x_gmp (-1) 23 1616615 1 ≤ 23 ∧
      23 ∣ iZ (1 * 1616615 + solve_for_x_gmp (-1) 23 1616615 1) (-1) ∧
      ∀ s, 1 ≤ s → s < solve_for_x_gmp (-1) 23 1616615 1 → ¬ 23 ∣ iZ (1 * 1616615 + s) (-1)) ∧
     (solveForXp (-1) 23 ≤ 1616615 * 1 → 1616615 * 1 < 2 ^ 64 →
      solve_for_x (-1) 23 1616615 1 = solve_for_x_gmp (-1) 23 1616615 1)) :=
  ⟨⟨Or.inr rfl, by norm_num, by norm_num, by decide, by norm_num⟩,
   C5_solve_for_x_amended (-1) (Or.inr rfl) 23 1616615 1 (by norm_num) (by norm_num)⟩

/-- Claim C5 (counterexample): at `matrix_id = -1`, `p = 23` (a prime `≥ 5`
not dividing `vx`), `vx = 1,616,615`, `y = 0`, the `uint64` version computes
`(0 - 4) mod 2^64 ≡ 2 (mod 23)` and returns `21`, but `iZ(0*vx + 21, -1) =
125` is not divisible by `23`; the smallest solution is `x = 4`
(`iZ(4,-1) = 23`), which the GMP version returns. -/
theorem C5_solve_for_x_wrap_counterexample :
    solve_for_x (-1) 23 1616615 0 = 21 ∧ ¬ 23 ∣ iZ (0 * 1616615 + 21) (-1) ∧
    solve_for_x_gmp (-1) 23 1616615 0 = 4 ∧ (23 ∣ iZ (0 * 1616615 + 4) (-1)) ∧
    Nat.Prime 23 ∧ ¬ 23 ∣ 1616615 := by
  refine ⟨by decide, by decide, by decide, by decide, by norm_num, by decide⟩

theorem clear_mod_p_false (b : Bitmap) (p st lim j : Nat) (h : bitmap_get_bit b j = false) :
    bitmap_get_bit (bitmap_clear_mod_p b p st lim) j = false := by
  unfold bitmap_get_bit at h
  unfold bitmap_get_bit bitmap_clear_mod_p
  split <;> simp [h]

theorem clear_mod_p_hit (b : Bitmap) (p st lim j : Nat)
    (h1 : st ≤ j) (h2 : j < lim) (h3 : (j - st) % p = 0) :
    bitmap_get_bit (bitmap_clear_mod_p b p st lim) j = false := by
  unfold bitmap_get_bit bitmap_clear_mod_p
  exact if_pos ⟨h1, h2, h3⟩

theorem clear_mod_p_miss (b : Bitmap) (p st lim j : Nat)
    (h : ¬(st ≤ j ∧ j < lim ∧ (j - st) % p = 0)) :
    bitmap_get_bit (bitmap_clear_mod_p b p st lim) j = bitmap_get_bit b j := by
  unfold bitmap_get_bit bitmap_clear_mod_p
  exact if_neg h

/-- Index of an iZ number: `izIdx (6x-1) = izIdx (6x+1) = x`. -/
def izIdx (q : Nat) : Nat := (q + 1) / 6

/-- Prime divisors of iZ numbers are themselves iZ numbers (coprime to 6). -/
theorem prime_divisor_of_iZ_mod6 (q v : Nat) (hq : Nat.Prime q) (hdvd : q ∣ v)
    (hv : v % 6 = 1 ∨ v % 6 = 5) : q % 6 = 1 ∨ q % 6 = 5 := by
  have h2 : ¬ 2 ∣ q := by
    intro h
    have h2v : 2 ∣ v := h.trans hdvd
    omega
  have h3 : ¬ 3 ∣ q := by
    intro h
    have h3v : 3 ∣ v := h.trans hdvd
    omega
  have := hq.two_le
  omega

/-- Divisor decomposition, class `iZ-` divisor of a class `iZ-` value:
`(6x-1) ∣ (6j-1)` forces the cofactor into class `iZ+` and pins `j`. -/
theorem divisorForm55 (x j w : Nat) (hx : 1 ≤ x) (hj : 1 ≤ j)
    (hw : 6 * j - 1 = (6 * x - 1) * w) (hne : j ≠ x) :
    ∃ t, 1 ≤ t ∧ w = 6 * t + 1 ∧ j = (6 * x - 1) * t + x := by
  have hwZ : (6 * (j : Int) - 1) = (6 * (x : Int) - 1) * w := by
    have h1 : ((6 * j - 1 : Nat) : Int) = 6 * (j : Int) - 1 := by omega
    have h2 : ((6 * x - 1 : Nat) : Int) = 6 * (x : Int) - 1 := by omega
    rw [← h1, ← h2, hw]
    push_cast
    ring
  obtain ⟨t, r, hdecomp, hrlt⟩ : ∃ t r, w = 6 * t + r ∧ r < 6 :=
    ⟨w / 6, w % 6, (Nat.div_add_mod w 6).symm, Nat.mod_lt _ (by norm_num)⟩
  have hexp : (6 * (x : Int) - 1) * (6 * (t : Int) + r) =
      36 * ((x : Int) * t) + 6 * ((x : Int) * r) - 6 * t - r := by ring
  rw [hdecomp] at hwZ
  push_cast at hwZ
  rw [hexp] at hwZ
  have hr1 : r = 1 := by omega
  subst hr1
  have hj_eq : j = (6 * x - 1) * t + x := by
    have hexp2 : ((6 * x - 1 : Nat) : Int) * t = 6 * ((x : Int) * t) - t := by
      have h2 : ((6 * x - 1 : Nat) : Int) = 6 * (x : Int) - 1 := by omega
      rw [h2]; ring
    omega
  have ht1 : 1 ≤ t := by
    rcases Nat.eq_zero_or_pos t with h0 | h1
    · subst h0
      omega
    · exact h1
  exact ⟨t, ht1, by omega, hj_eq⟩

/-- Divisor decomposition, class `iZ-` divisor of a class `iZ+` value. -/
theorem divisorForm57 (x j w : Nat) (hx : 1 ≤ x) (hj : 1 ≤ j)
    (hw : 6 * j + 1 = (6 * x - 1) * w) :
    ∃ t, w = 6 * t + 5 ∧ j = (6 * x - 1) * t + 5 * x - 1 := by
  have hwZ : (6 * (j : Int) + 1) = (6 * (x : Int) - 1) * w := by
    have h2 : ((6 * x - 1 : Nat) : Int) = 6 * (x : Int) - 1 := by omega
    rw [← h2]
    exact_mod_cast hw
  obtain ⟨t, r, hdecomp, hrlt⟩ : ∃ t r, w = 6 * t + r ∧ r < 6 :=
    ⟨w / 6, w % 6, (Nat.div_add_mod w 6).symm, Nat.mod_lt _ (by norm_num)⟩
  have hexp : (6 * (x : Int) - 1) * (6 * (t : Int) + r) =
      36 * ((x : Int) * t) + 6 * ((x : Int) * r) - 6 * t - r := by ring
  rw [hdecomp] at hwZ
  push_cast at hwZ
  rw [hexp] at hwZ
  have hr1 : r = 5 := by omega
  subst hr1
  have hj_eq : j = (6 * x - 1) * t + 5 * x - 1 := by
    have hexp2 : ((6 * x - 1 : Nat) : Int) * t = 6 * ((x : Int) * t) - t := by
      have h2 : ((6 * x - 1 : Nat) : Int) = 6 * (x : Int) - 1 := by omega
      rw [h2]; ring
    omega
  exact ⟨t, by omega, hj_eq⟩

/-- Divisor decomposition, class `iZ+` divisor of a class `iZ-` value. -/
theorem divisorForm75 (x j w : Nat) (hx : 1 ≤ x) (hj : 1 ≤ j)
    (hw : 6 * j - 1 = (6 * x + 1) * w) :
    ∃ t, w = 6 * t + 5 ∧ j = (6 * x + 1) * t + 5 * x + 1 := by
  have hwZ : (6 * (j : Int) - 1) = (6 * (x : Int) + 1) * w := by
    have h1 : ((6 * j - 1 : Nat) : Int) = 6 * (j : Int) - 1 := by omega
    rw [← h1, hw]
    push_cast
    ring
  obtain ⟨t, r, hdecomp, hrlt⟩ : ∃ t r, w = 6 * t + r ∧ r < 6 :=
    ⟨w / 6, w % 6, (Nat.div_add_mod w 6).symm, Nat.mod_lt _ (by norm_num)⟩
  have hexp : (6 * (x : Int) + 1) * (6 * (t : Int) + r) =
      36 * ((x : Int) * t) + 6 * ((x : Int) * r) + 6 * t + r := by ring
  rw [hdecomp] at hwZ
  push_cast at hwZ
  rw [hexp] at hwZ
  have hr1 : r = 5 := by omega
  subst hr1
  have hj_eq : j = (6 * x + 1) * t + 5 * x + 1 := by
    have hexp2 : ((6 * x + 1 : Nat) : Int) * t = 6 * ((x : Int) * t) + t := by
      push_cast
      ring
    omega
  exact ⟨t, by omega, hj_eq⟩

/-- Divisor decomposition, class `iZ+` divisor of a class `iZ+` value. -/
theorem divisorForm77 (x j w : Nat) (hx : 1 ≤ x) (hj : 1 ≤ j)
    (hw : 6 * j + 1 = (6 * x + 1) * w) (hne : j ≠ x) :
    ∃ t, 1 ≤ t ∧ w = 6 * t + 1 ∧ j = (6 * x + 1) * t + x := by
  have hwZ : (6 * (j : Int) + 1) = (6 * (x : Int) + 1) * w := by
    exact_mod_cast hw
  obtain ⟨t, r, hdecomp, hrlt⟩ : ∃ t r, w = 6 * t + r ∧ r < 6 :=
    ⟨w / 6, w % 6, (Nat.div_add_mod w 6).symm, Nat.mod_lt _ (by norm_num)⟩
  have hexp : (6 * (x : Int) + 1) * (6 * (t : Int) + r) =
      36 * ((x : Int) * t) + 6 * ((x : Int) * r) + 6 * t + r := by ring
  rw [hdecomp] at hwZ
  push_cast at hwZ
  rw [hexp] at hwZ
  have hr1 : r = 1 := by omega
  subst hr1
  have hj_eq : j = (6 * x + 1) * t + x := by
    have hexp2 : ((6 * x + 1 : Nat) : Int) * t = 6 * ((x : Int) * t) + t := by
      push_cast
      ring
    omega
  have ht1 : 1 ≤ t := by
    rcases Nat.eq_zero_or_pos t with h0 | h1
    · subst h0
      omega
    · exact h1
  exact ⟨t, ht1, by omega, hj_eq⟩

/-- Claim C3 (counterexample): `iZ_next_prime(9, forward = true)` is claimed
to return the smallest probable prime greater than `9`, which is `11`; but
`11` divides the walker's `vx = 5005` and its bit is pre-cleared from the base
pattern, so the code returns `17`. -/
theorem C3_next_prime_skips_11_at_base_9 :
    iZ_next_prime probable_prime 9 true = some 17 ∧
    Nat.Prime 11 ∧ 9 < 11 ∧ 11 < 17 := by
  refine ⟨by decide, by norm_num, by norm_num, by norm_num⟩

theorem bytesToU64_u64Bytes (v : Nat) (hv : v < 2 ^ 64) :
    bytesToU64 (u64Bytes v) = v := by
  simp only [u64Bytes, bytesToU64, List.foldr]
  omega

theorem u64Bytes_length (v : Nat) : (u64Bytes v).length = 8 := rfl

theorem bytesOfPrimes_cons (v : Nat) (t : List Nat) :
    bytesOfPrimes (v :: t) = u64Bytes v ++ bytesOfPrimes t := by
  simp [bytesOfPrimes]

theorem bytesOfPrimes_length (l : List Nat) : (bytesOfPrimes l).length = 8 * l.length := by
  induction l with
  | nil => rfl
  | cons v t ih =>
    rw [bytesOfPrimes_cons, List.length_append, u64Bytes_length, ih, List.length_cons]
    ring

theorem parseU64s_roundtrip (l : List Nat) (h : ∀ e ∈ l, e < 2 ^ 64) :
    parseU64s l.length (bytesOfPrimes l) = some l := by
  induction l with
  | nil => rfl
  | cons v t ih =>
    rw [bytesOfPrimes_cons, List.length_cons]
    show parseU64s (t.length + 1) (u64Bytes v ++ bytesOfPrimes t) = some (v :: t)
    have hlen : (u64Bytes v ++ bytesOfPrimes t).length = 8 + 8 * t.length := by
      rw [List.length_append, u64Bytes_length, bytesOfPrimes_length]
    have hnlt : ¬ (u64Bytes v ++ bytesOfPrimes t).length < 8 := by omega
    have htake : (u64Bytes v ++ bytesOfPrimes t).take 8 = u64Bytes v := by
      rw [← u64Bytes_length v]
      exact List.take_left _ _
    have hdrop : (u64Bytes v ++ bytesOfPrimes t).drop 8 = bytesOfPrimes t := by
      rw [← u64Bytes_length v]
      exact List.drop_left _ _
    rw [parseU64s, if_neg hnlt, htake, hdrop,
      ih (fun e he => h e (List.mem_cons_of_mem v he)),
      bytesToU64_u64Bytes v (h v (List.mem_cons_self v t))]
    rfl

theorem parseU64s_isSome_of_length (count : Nat) :
    ∀ bs : List Nat, bs.length = 8 * count → ∃ l, parseU64s count bs = some l := by
  induction count with
  | zero =>
    intro bs hlen
    have : bs = [] := List.eq_nil_of_length_eq_zero (by omega)
    subst this
    exact ⟨[], rfl⟩
  | succ m ih =>
    intro bs hlen
    have hnlt : ¬ bs.length < 8 := by omega
    have hdl : (bs.drop 8).length = 8 * m := by
      rw [List.length_drop]
      omega
    obtain ⟨l, hl⟩ := ih (bs.drop 8) hdl
    refine ⟨bytesToU64 (bs.take 8) :: l, ?_⟩
    rw [parseU64s, if_neg hnlt, hl]
    rfl

/-- Claim C9: for every populated prime list, reading back the written file
reconstructs an equal list; and altering any single byte of the stored body
makes `primes_obj_read_file` fail the hash check and return null. The hash
`h` models SHA-256 (external), assumed injective on equal-length bodies (the
claim's tamper-detection is exactly its second-preimage resistance). -/
theorem C9_roundtrip_and_tamper (h : List Nat → List Nat)
    (hinj : ∀ b1 b2 : List Nat, b1.length = b2.length → h b1 = h b2 → b1 = b2)
    (o : PRIMES_OBJ) (hpop : o.p_array ≠ [])
    (hbound : ∀ e ∈ o.p_array, e < 2 ^ 64) :
    primes_obj_read_file h (primes_obj_write_file h o) = some o ∧
    ∀ i b, i < (primes_obj_write_file h o).body.length →
      b ≠ (primes_obj_write_file h o).body.getD i 0 →
      primes_obj_read_file h (tamperByte (primes_obj_write_file h o) i b) = none := by
  have hcount : o.p_count ≠ 0 := by
    simp only [PRIMES_OBJ.p_count]
    exact fun hc => hpop (List.eq_nil_of_length_eq_zero hc)
  constructor
  · show primes_obj_read_file h ⟨o.p_count, bytesOfPrimes o.p_array, h (bytesOfPrimes o.p_array)⟩
      = some o
    rw [primes_obj_read_file, if_neg hcount]
    have hparse : parseU64s o.p_count (bytesOfPrimes o.p_array) = some o.p_array :=
      parseU64s_roundtrip o.p_array hbound
    rw [hparse]
    simp
  · intro i b hi hb
    show primes_obj_read_file h
      ⟨o.p_count, (bytesOfPrimes o.p_array).set i b, h (bytesOfPrimes o.p_array)⟩ = none
    rw [primes_obj_read_file, if_neg hcount]
    have hi' : i < (bytesOfPrimes o.p_array).length := hi
    have hb' : b ≠ (bytesOfPrimes o.p_array).getD i 0 := hb
    have hlen : ((bytesOfPrimes o.p_array).set i b).length = 8 * o.p_count := by
      rw [List.length_set, bytesOfPrimes_length]
      rfl
    obtain ⟨l, hl⟩ := parseU64s_isSome_of_length o.p_count _ hlen
    have hne : (bytesOfPrimes o.p_array).set i b ≠ bytesOfPrimes o.p_array := by
      intro heq
      have hget : ((bytesOfPrimes o.p_array).set i b).getD i 0 =
          (bytesOfPrimes o.p_array).getD i 0 := by rw [heq]
      rw [List.getD_eq_getElem?_getD, List.getElem?_set_self hi'] at hget
      simp only [Option.getD_some] at hget
      exact hb' hget
    have hhne : h ((bytesOfPrimes o.p_array).set i b) ≠ h (bytesOfPrimes o.p_array) := by
      intro heqh
      exact hne (hinj _ _ (by rw [List.length_set]) heqh)
    rw [hl]
    simp [hhne]

/-- Witness for C9: the identity hash is injective, and the concrete list
`[2,3,5,7]` round-trips while any single-byte body tamper is rejected. -/
theorem C9_roundtrip_and_tamper_witness :
    ((⟨[2, 3, 5, 7]⟩ : PRIMES_OBJ).p_array ≠ [] ∧
      (∀ e ∈ (⟨[2, 3, 5, 7]⟩ : PRIMES_OBJ).p_array, e < 2 ^ 64)) ∧
    (primes_obj_read_file (fun l => l) (primes_obj_write_file (fun l => l) ⟨[2, 3, 5, 7]⟩) =
        some ⟨[2, 3, 5, 7]⟩ ∧
      ∀ i b, i < (primes_obj_write_file (fun l => l) (⟨[2, 3, 5, 7]⟩ : PRIMES_OBJ)).body.length →
        b ≠ (primes_obj_write_file (fun l => l) (⟨[2, 3, 5, 7]⟩ : PRIMES_OBJ)).body.getD i 0 →
        primes_obj_read_file (fun l => l)
          (tamperByte (primes_obj_write_file (fun l => l) ⟨[2, 3, 5, 7]⟩) i b) = none) :=
  ⟨⟨by decide, by decide⟩,
   C9_roundtrip_and_tamper (fun l => l) (fun _ _ _ he => he) ⟨[2, 3, 5, 7]⟩
     (by decide) (by decide)⟩

/-- Witness for C10 at a concrete input: an accumulated gap of `70000` is
stored as `70000 % 65536 = 4464`. -/
theorem C10_gap_stored_mod_2_16_witness :
    (∀ e ∈ (⟨35, 0, [4]⟩ : VX_OBJ).p_gaps, e ≤ 65535) ∧
    ((vx_append_p_gap ⟨35, 0, [4]⟩ 70000).p_gaps = [4] ++ [70000 % 65536] ∧
     ∀ e ∈ (vx_append_p_gap ⟨35, 0, [4]⟩ 70000).p_gaps, e ≤ 65535) :=
  ⟨by decide, C10_gap_stored_mod_2_16 ⟨35, 0, [4]⟩ 70000 (by decide)⟩


/-- First half of `sieveIZStep`: the `x5` branch (`sieve_iZ.c` lines 104-117). -/
def sieveIZB5 (n_sqrt x_n : Nat) (s : SvState) (x : Nat) : SvState :=
  if bitmap_get_bit s.x5 x then
    let p := iZ x (-1)
    let pr := primes_obj_append s.primes p
    if p < n_sqrt then
      { x5 := bitmap_clear_mod_p s.x5 p (p * x + x) x_n
        x7 := bitmap_clear_mod_p s.x7 p (p * x - x) x_n
        primes := pr }
    else { s with primes := pr }
  else s

/-- Second half of `sieveIZStep`: the `x7` branch (`sieve_iZ.c` lines 118-131). -/
def sieveIZB7 (n_sqrt x_n : Nat) (s : SvState) (x : Nat) : SvState :=
  if bitmap_get_bit s.x7 x then
    let p := iZ x 1
    let pr := primes_obj_append s.primes p
    if p < n_sqrt then
      { x5 := bitmap_clear_mod_p s.x5 p (p * x - x) x_n
        x7 := bitmap_clear_mod_p s.x7 p (p * x + x) x_n
        primes := pr }
    else { s with primes := pr }
  else s

theorem sieveIZStep_eq (ns xn : Nat) (s : SvState) (x : Nat) :
    sieveIZStep ns xn s x = sieveIZB7 ns xn (sieveIZB5 ns xn s x) x := rfl

theorem sieveIZB5_false (ns xn : Nat) (s : SvState) (x : Nat)
    (h : bitmap_get_bit s.x5 x = false) : sieveIZB5 ns xn s x = s := by
  simp [sieveIZB5, h]

theorem sieveIZB5_true_small (ns xn : Nat) (s : SvState) (x : Nat)
    (h : bitmap_get_bit s.x5 x = true) (hs : iZ x (-1) < ns) :
    sieveIZB5 ns xn s x =
      ⟨bitmap_clear_mod_p s.x5 (iZ x (-1)) (iZ x (-1) * x + x) xn,
       bitmap_clear_mod_p s.x7 (iZ x (-1)) (iZ x (-1) * x - x) xn,
       primes_obj_append s.primes (iZ x (-1))⟩ := by
  simp [sieveIZB5, h, hs]

theorem sieveIZB5_true_big (ns xn : Nat) (s : SvState) (x : Nat)
    (h : bitmap_get_bit s.x5 x = true) (hs : ¬ iZ x (-1) < ns) :
    sieveIZB5 ns xn s x = { s with primes := primes_obj_append s.primes (iZ x (-1)) } := by
  simp [sieveIZB5, h, hs]

theorem sieveIZB7_false (ns xn : Nat) (s : SvState) (x : Nat)
    (h : bitmap_get_bit s.x7 x = false) : sieveIZB7 ns xn s x = s := by
  simp [sieveIZB7, h]

theorem sieveIZB7_true_small (ns xn : Nat) (s : SvState) (x : Nat)
    (h : bitmap_get_bit s.x7 x = true) (hs : iZ x 1 < ns) :
    sieveIZB7 ns xn s x =
      ⟨bitmap_clear_mod_p s.x5 (iZ x 1) (iZ x 1 * x - x) xn,
       bitmap_clear_mod_p s.x7 (iZ x 1) (iZ x 1 * x + x) xn,
       primes_obj_append s.primes (iZ x 1)⟩ := by
  simp [sieveIZB7, h, hs]

theorem sieveIZB7_true_big (ns xn : Nat) (s : SvState) (x : Nat)
    (h : bitmap_get_bit s.x7 x = true) (hs : ¬ iZ x 1 < ns) :
    sieveIZB7 ns xn s x = { s with primes := primes_obj_append s.primes (iZ x 1) } := by
  simp [sieveIZB7, h, hs]

theorem sieveIZB5_x5_false (ns xn : Nat) (s : SvState) (x j : Nat)
    (h : bitmap_get_bit s.x5 j = false) :
    bitmap_get_bit (sieveIZB5 ns xn s x).x5 j = false := by
  rcases Bool.eq_false_or_eq_true (bitmap_get_bit s.x5 x) with hb | hb
  · by_cases hs : iZ x (-1) < ns
    · rw [sieveIZB5_true_small ns xn s x hb hs]
      exact clear_mod_p_false _ _ _ _ _ h
    · rw [sieveIZB5_true_big ns xn s x hb hs]; exact h
  · rw [sieveIZB5_false ns xn s x hb]; exact h

theorem sieveIZB5_x7_false (ns xn : Nat) (s : SvState) (x j : Nat)
    (h : bitmap_get_bit s.x7 j = false) :
    bitmap_get_bit (sieveIZB5 ns xn s x).x7 j = false := by
  rcases Bool.eq_false_or_eq_true (bitmap_get_bit s.x5 x) with hb | hb
  · by_cases hs : iZ x (-1) < ns
    · rw [sieveIZB5_true_small ns xn s x hb hs]
      exact clear_mod_p_false _ _ _ _ _ h
    · rw [sieveIZB5_true_big ns xn s x hb hs]; exact h
  · rw [sieveIZB5_false ns xn s x hb]; exact h

theorem sieveIZB7_x5_false (ns xn : Nat) (s : SvState) (x j : Nat)
    (h : bitmap_get_bit s.x5 j = false) :
    bitmap_get_bit (sieveIZB7 ns xn s x).x5 j = false := by
  rcases Bool.eq_false_or_eq_true (bitmap_get_bit s.x7 x) with hb | hb
  · by_cases hs : iZ x 1 < ns
    · rw [sieveIZB7_true_small ns xn s x hb hs]
      exact clear_mod_p_false _ _ _ _ _ h
    · rw [sieveIZB7_true_big ns xn s x hb hs]; exact h
  · rw [sieveIZB7_false ns xn s x hb]; exact h

theorem sieveIZB7_x7_false (ns xn : Nat) (s : SvState) (x j : Nat)
    (h : bitmap_get_bit s.x7 j = false) :
    bitmap_get_bit (sieveIZB7 ns xn s x).x7 j = false := by
  rcases Bool.eq_false_or_eq_true (bitmap_get_bit s.x7 x) with hb | hb
  · by_cases hs : iZ x 1 < ns
    · rw [sieveIZB7_true_small ns xn s x hb hs]
      exact clear_mod_p_false _ _ _ _ _ h
    · rw [sieveIZB7_true_big ns xn s x hb hs]; exact h
  · rw [sieveIZB7_false ns xn s x hb]; exact h

/-- The `x5` stride of a class `iZ-` root prime `6x-1` (start `p*x + x`) only
clears indices whose `iZ-` value is a proper multiple `(6x-1)*(6x+6c+1)`. -/
theorem clear_keep55 (b : Bitmap) (x xn j : Nat) (hx : 1 ≤ x)
    (hp : Nat.Prime (6 * j - 1)) :
    bitmap_get_bit (bitmap_clear_mod_p b (6 * x - 1) ((6 * x - 1) * x + x) xn) j =
      bitmap_get_bit b j := by
  apply clear_mod_p_miss
  rintro ⟨h1, h2, h3⟩
  obtain ⟨c, hc⟩ := Nat.dvd_of_mod_eq_zero h3
  have hexp : (6 * x - 1) * (6 * x + 6 * c + 1) =
      6 * ((6 * x - 1) * x) + 6 * ((6 * x - 1) * c) + (6 * x - 1) := by ring
  have hval : 6 * j - 1 = (6 * x - 1) * (6 * x + 6 * c + 1) := by omega
  rw [hval] at hp
  exact Nat.not_prime_mul (by omega) (by omega) hp

/-- The `x7` stride of a class `iZ-` root prime `6x-1` (start `p*x - x`) only
clears indices whose `iZ+` value is a proper multiple `(6x-1)*(6x+6c-1)`. -/
theorem clear_keep57 (b : Bitmap) (x xn j : Nat) (hx : 1 ≤ x)
    (hp : Nat.Prime (6 * j + 1)) :
    bitmap_get_bit (bitmap_clear_mod_p b (6 * x - 1) ((6 * x - 1) * x - x) xn) j =
      bitmap_get_bit b j := by
  apply clear_mod_p_miss
  rintro ⟨h1, h2, h3⟩
  obtain ⟨c, hc⟩ := Nat.dvd_of_mod_eq_zero h3
  have hA : 1 * x ≤ (6 * x - 1) * x := Nat.mul_le_mul_right x (by omega)
  have hexp : (6 * x - 1) * (6 * x + 6 * c - 1) + (6 * x - 1) =
      6 * ((6 * x - 1) * x) + 6 * ((6 * x - 1) * c) := by
    have h4 : 6 * x + 6 * c - 1 + 1 = 6 * x + 6 * c := by omega
    calc (6 * x - 1) * (6 * x + 6 * c - 1) + (6 * x - 1)
        = (6 * x - 1) * (6 * x + 6 * c - 1 + 1) := by ring
      _ = (6 * x - 1) * (6 * x + 6 * c) := by rw [h4]
      _ = 6 * ((6 * x - 1) * x) + 6 * ((6 * x - 1) * c) := by ring
  have hval : 6 * j + 1 = (6 * x - 1) * (6 * x + 6 * c - 1) := by omega
  rw [hval] at hp
  exact Nat.not_prime_mul (by omega) (by omega) hp

/-- The `x5` stride of a class `iZ+` root prime `6x+1` (start `p*x - x`) only
clears indices whose `iZ-` value is a proper multiple `(6x+1)*(6x+6c-1)`. -/
theorem clear_keep75 (b : Bitmap) (x xn j : Nat) (hx : 1 ≤ x)
    (hp : Nat.Prime (6 * j - 1)) :
    bitmap_get_bit (bitmap_clear_mod_p b (6 * x + 1) ((6 * x + 1) * x - x) xn) j =
      bitmap_get_bit b j := by
  apply clear_mod_p_miss
  rintro ⟨h1, h2, h3⟩
  obtain ⟨c, hc⟩ := Nat.dvd_of_mod_eq_zero h3
  have hA : 1 * x ≤ (6 * x + 1) * x := Nat.mul_le_mul_right x (by omega)
  have hexp : (6 * x + 1) * (6 * x + 6 * c - 1) + (6 * x + 1) =
      6 * ((6 * x + 1) * x) + 6 * ((6 * x + 1) * c) := by
    have h4 : 6 * x + 6 * c - 1 + 1 = 6 * x + 6 * c := by omega
    calc (6 * x + 1) * (6 * x + 6 * c - 1) + (6 * x + 1)
        = (6 * x + 1) * (6 * x + 6 * c - 1 + 1) := by ring
      _ = (6 * x + 1) * (6 * x + 6 * c) := by rw [h4]
      _ = 6 * ((6 * x + 1) * x) + 6 * ((6 * x + 1) * c) := by ring
  have hval : 6 * j - 1 = (6 * x + 1) * (6 * x + 6 * c - 1) := by omega
  rw [hval] at hp
  exact Nat.not_prime_mul (by omega) (by omega) hp

/-- The `x7` stride of a class `iZ+` root prime `6x+1` (start `p*x + x`) only
clears indices whose `iZ+` value is a proper multiple `(6x+1)*(6x+6c+1)`. -/
theorem clear_keep77 (b : Bitmap) (x xn j : Nat) (hx : 1 ≤ x)
    (hp : Nat.Prime (6 * j + 1)) :
    bitmap_get_bit (bitmap_clear_mod_p b (6 * x + 1) ((6 * x + 1) * x + x) xn) j =
      bitmap_get_bit b j := by
  apply clear_mod_p_miss
  rintro ⟨h1, h2, h3⟩
  obtain ⟨c, hc⟩ := Nat.dvd_of_mod_eq_zero h3
  have hexp : (6 * x + 1) * (6 * x + 6 * c + 1) =
      6 * ((6 * x + 1) * x) + 6 * ((6 * x + 1) * c) + (6 * x + 1) := by ring
  have hval : 6 * j + 1 = (6 * x + 1) * (6 * x + 6 * c + 1) := by omega
  rw [hval] at hp
  exact Nat.not_prime_mul (by omega) (by omega) hp

/-- Coverage of the `x5` stride of root prime `q = 6x-1`: any proper multiple
`6j-1` of `q` is either hit by the stride starting at `q*x + x`, or has a
prime divisor already processed at an earlier index. -/
theorem cov55 (x j : Nat) (hx : 1 ≤ x) (hj : 1 ≤ j)
    (hdvd : (6 * x - 1) ∣ (6 * j - 1)) (hne : 6 * x - 1 ≠ 6 * j - 1) :
    ((6 * x - 1) * x + x ≤ j ∧ (j - ((6 * x - 1) * x + x)) % (6 * x - 1) = 0) ∨
    (∃ r, Nat.Prime r ∧ r ∣ (6 * j - 1) ∧ r ≠ 6 * j - 1 ∧ r < 6 * x - 1 ∧
      izIdx r ≤ x - 1) := by
  obtain ⟨w, hw⟩ := hdvd
  have hjx : j ≠ x := by rintro rfl; exact hne rfl
  obtain ⟨t, ht1, hwt, hjt⟩ := divisorForm55 x j w hx hj hw hjx
  by_cases hcov : x ≤ t
  · left
    have hmul : (6 * x - 1) * x ≤ (6 * x - 1) * t := Nat.mul_le_mul_left _ hcov
    have hexp : (6 * x - 1) * (t - x) + (6 * x - 1) * x = (6 * x - 1) * t := by
      rw [← Nat.mul_add]
      congr 1
      omega
    constructor
    · omega
    · have h2 : j - ((6 * x - 1) * x + x) = (6 * x - 1) * (t - x) := by omega
      rw [h2]
      exact Nat.mul_mod_right _ _
  · right
    have hw1 : w ≠ 1 := by omega
    have hw0 : 0 < w := by omega
    refine ⟨w.minFac, Nat.minFac_prime hw1, dvd_trans (Nat.minFac_dvd w) ⟨6 * x - 1, by
      rw [hw]; exact Nat.mul_comm _ _⟩, ?_, ?_, ?_⟩
    · have h1 : w.minFac ≤ w := Nat.minFac_le hw0
      have h2 : w < (6 * x - 1) * w := by
        have := (Nat.lt_mul_iff_one_lt_left hw0).mpr (show 1 < 6 * x - 1 by omega)
        exact this
      omega
    · have h1 : w.minFac ≤ w := Nat.minFac_le hw0
      omega
    · have h1 : w.minFac ≤ w := Nat.minFac_le hw0
      unfold izIdx
      have h2 : (w.minFac + 1) / 6 ≤ (w + 1) / 6 := Nat.div_le_div_right (by omega)
      omega

/-- Coverage of the `x7` stride of root prime `q = 6x-1`: any multiple `6j+1`
of `q` is either hit by the stride starting at `q*x - x`, or has a prime
divisor already processed at an earlier index. -/
theorem cov57 (x j : Nat) (hx : 1 ≤ x) (hj : 1 ≤ j)
    (hdvd : (6 * x - 1) ∣ (6 * j + 1)) :
    ((6 * x - 1) * x - x ≤ j ∧ (j - ((6 * x - 1) * x - x)) % (6 * x - 1) = 0) ∨
    (∃ r, Nat.Prime r ∧ r ∣ (6 * j + 1) ∧ r ≠ 6 * j + 1 ∧ r < 6 * x - 1 ∧
      izIdx r ≤ x - 1) := by
  obtain ⟨w, hw⟩ := hdvd
  obtain ⟨t, hwt, hjt⟩ := divisorForm57 x j w hx hj hw
  by_cases hcov : x - 1 ≤ t
  · left
    have hexp : (6 * x - 1) * (t - (x - 1)) + (6 * x - 1) * (x - 1) = (6 * x - 1) * t := by
      rw [← Nat.mul_add]
      congr 1
      omega
    have hexp2 : (6 * x - 1) * (x - 1) + (6 * x - 1) = (6 * x - 1) * x := by
      have h4 : x - 1 + 1 = x := by omega
      calc (6 * x - 1) * (x - 1) + (6 * x - 1) = (6 * x - 1) * (x - 1 + 1) := by ring
        _ = (6 * x - 1) * x := by rw [h4]
    constructor
    · omega
    · have h2 : j - ((6 * x - 1) * x - x) = (6 * x - 1) * (t - (x - 1)) := by omega
      rw [h2]
      exact Nat.mul_mod_right _ _
  · right
    have hw1 : w ≠ 1 := by omega
    have hw0 : 0 < w := by omega
    refine ⟨w.minFac, Nat.minFac_prime hw1, dvd_trans (Nat.minFac_dvd w) ⟨6 * x - 1, by
      rw [hw]; exact Nat.mul_comm _ _⟩, ?_, ?_, ?_⟩
    · have h1 : w.minFac ≤ w := Nat.minFac_le hw0
      have h2 : w < (6 * x - 1) * w := (Nat.lt_mul_iff_one_lt_left hw0).mpr (by omega)
      omega
    · have h1 : w.minFac ≤ w := Nat.minFac_le hw0
      omega
    · have h1 : w.minFac ≤ w := Nat.minFac_le hw0
      unfold izIdx
      have h2 : (w.minFac + 1) / 6 ≤ (w + 1) / 6 := Nat.div_le_div_right (by omega)
      omega

/-- Coverage of the `x5` stride of root prime `q = 6x+1`: any multiple `6j-1`
of `q` is either hit by the stride starting at `q*x - x`, or has a prime
divisor already processed at an earlier index. -/
theorem cov75 (x j : Nat) (hx : 1 ≤ x) (hj : 1 ≤ j)
    (hdvd : (6 * x + 1) ∣ (6 * j - 1)) :
    ((6 * x + 1) * x - x ≤ j ∧ (j - ((6 * x + 1) * x - x)) % (6 * x + 1) = 0) ∨
    (∃ r, Nat.Prime r ∧ r ∣ (6 * j - 1) ∧ r ≠ 6 * j - 1 ∧ r < 6 * x + 1 ∧
      izIdx r ≤ x - 1) := by
  obtain ⟨w, hw⟩ := hdvd
  obtain ⟨t, hwt, hjt⟩ := divisorForm75 x j w hx hj hw
  by_cases hcov : x - 1 ≤ t
  · left
    have hexp : (6 * x + 1) * (t - (x - 1)) + (6 * x + 1) * (x - 1) = (6 * x + 1) * t := by
      rw [← Nat.mul_add]
      congr 1
      omega
    have hexp2 : (6 * x + 1) * (x - 1) + (6 * x + 1) = (6 * x + 1) * x := by
      have h4 : x - 1 + 1 = x := by omega
      calc (6 * x + 1) * (x - 1) + (6 * x + 1) = (6 * x + 1) * (x - 1 + 1) := by ring
        _ = (6 * x + 1) * x := by rw [h4]
    constructor
    · omega
    · have h2 : j - ((6 * x + 1) * x - x) = (6 * x + 1) * (t - (x - 1)) := by omega
      rw [h2]
      exact Nat.mul_mod_right _ _
  · right
    have hw1 : w ≠ 1 := by omega
    have hw0 : 0 < w := by omega
    refine ⟨w.minFac, Nat.minFac_prime hw1, dvd_trans (Nat.minFac_dvd w) ⟨6 * x + 1, by
      rw [hw]; exact Nat.mul_comm _ _⟩, ?_, ?_, ?_⟩
    · have h1 : w.minFac ≤ w := Nat.minFac_le hw0
      have h2 : w < (6 * x + 1) * w := (Nat.lt_mul_iff_one_lt_left hw0).mpr (by omega)
      omega
    · have h1 : w.minFac ≤ w := Nat.minFac_le hw0
      omega
    · have h1 : w.minFac ≤ w := Nat.minFac_le hw0
      unfold izIdx
      have h2 : (w.minFac + 1) / 6 ≤ (w + 1) / 6 := Nat.div_le_div_right (by omega)
      omega

/-- Coverage of the `x7` stride of root prime `q = 6x+1`: any proper multiple
`6j+1` of `q` is either hit by the stride starting at `q*x + x`, or has a
prime divisor already processed at an earlier index. -/
theorem cov77 (x j : Nat) (hx : 1 ≤ x) (hj : 1 ≤ j)
    (hdvd : (6 * x + 1) ∣ (6 * j + 1)) (hne : 6 * x + 1 ≠ 6 * j + 1) :
    ((6 * x + 1) * x + x ≤ j ∧ (j - ((6 * x + 1) * x + x)) % (6 * x + 1) = 0) ∨
    (∃ r, Nat.Prime r ∧ r ∣ (6 * j + 1) ∧ r ≠ 6 * j + 1 ∧ r < 6 * x + 1 ∧
      izIdx r ≤ x - 1) := by
  obtain ⟨w, hw⟩ := hdvd
  have hjx : j ≠ x := by rintro rfl; exact hne rfl
  obtain ⟨t, ht1, hwt, hjt⟩ := divisorForm77 x j w hx hj hw hjx
  by_cases hcov : x ≤ t
  · left
    have hmul : (6 * x + 1) * x ≤ (6 * x + 1) * t := Nat.mul_le_mul_left _ hcov
    have hexp : (6 * x + 1) * (t - x) + (6 * x + 1) * x = (6 * x + 1) * t := by
      rw [← Nat.mul_add]
      congr 1
      omega
    constructor
    · omega
    · have h2 : j - ((6 * x + 1) * x + x) = (6 * x + 1) * (t - x) := by omega
      rw [h2]
      exact Nat.mul_mod_right _ _
  · right
    have hw1 : w ≠ 1 := by omega
    have hw0 : 0 < w := by omega
    refine ⟨w.minFac, Nat.minFac_prime hw1, dvd_trans (Nat.minFac_dvd w) ⟨6 * x + 1, by
      rw [hw]; exact Nat.mul_comm _ _⟩, ?_, ?_, ?_⟩
    · have h1 : w.minFac ≤ w := Nat.minFac_le hw0
      have h2 : w < (6 * x + 1) * w := (Nat.lt_mul_iff_one_lt_left hw0).mpr (by omega)
      omega
    · have h1 : w.minFac ≤ w := Nat.minFac_le hw0
      omega
    · have h1 : w.minFac ≤ w := Nat.minFac_le hw0
      unfold izIdx
      have h2 : (w.minFac + 1) / 6 ≤ (w + 1) / 6 := Nat.div_le_div_right (by omega)
      omega

/-- Loop invariant of `sieve_iZ` after the iterations `x = 1 .. k`: composites
whose least processed prime divisor is already handled are cleared (`a5`/`a7`),
prime positions are never cleared (`b5`/`b7`), and the collected list is
sorted, bounded, prime (up to `n`) and of the shape `2 :: 3 :: iZ values`. -/
structure SieveInv (n ns xn k : Nat) (s : SvState) : Prop where
  a5 : ∀ j q, 1 ≤ j → j < xn → Nat.Prime q → q < ns → q ∣ (6 * j - 1) →
    q ≠ 6 * j - 1 → izIdx q ≤ k → bitmap_get_bit s.x5 j = false
  a7 : ∀ j q, 1 ≤ j → j < xn → Nat.Prime q → q < ns → q ∣ (6 * j + 1) →
    q ≠ 6 * j + 1 → izIdx q ≤ k → bitmap_get_bit s.x7 j = false
  b5 : ∀ j, 1 ≤ j → Nat.Prime (6 * j - 1) → bitmap_get_bit s.x5 j = true
  b7 : ∀ j, 1 ≤ j → Nat.Prime (6 * j + 1) → bitmap_get_bit s.x7 j = true
  sorted : List.Chain' (· < ·) s.primes.p_array
  upper : ∀ e ∈ s.primes.p_array, e ≤ 3 ∨ e ≤ 6 * k + 1
  primeElems : ∀ e ∈ s.primes.p_array, e ≤ n → Nat.Prime e
  shape : ∃ tl, s.primes.p_array = 2 :: 3 :: tl ∧
    ∀ e ∈ tl, ∃ x, 1 ≤ x ∧ x ≤ k ∧ (e = 6 * x - 1 ∨ e = 6 * x + 1)

/-- Intermediate invariant between the two halves of iteration `x = k + 1`:
the `iZ-` prime of index `k+1` (residue 5 mod 6) is already processed, the
`iZ+` one is not yet. -/
structure SieveInvH (n ns xn k : Nat) (s : SvState) : Prop where
  a5 : ∀ j q, 1 ≤ j → j < xn → Nat.Prime q → q < ns → q ∣ (6 * j - 1) →
    q ≠ 6 * j - 1 → (izIdx q ≤ k ∨ (q % 6 = 5 ∧ izIdx q ≤ k + 1)) →
    bitmap_get_bit s.x5 j = false
  a7 : ∀ j q, 1 ≤ j → j < xn → Nat.Prime q → q < ns → q ∣ (6 * j + 1) →
    q ≠ 6 * j + 1 → (izIdx q ≤ k ∨ (q % 6 = 5 ∧ izIdx q ≤ k + 1)) →
    bitmap_get_bit s.x7 j = false
  b5 : ∀ j, 1 ≤ j → Nat.Prime (6 * j - 1) → bitmap_get_bit s.x5 j = true
  b7 : ∀ j, 1 ≤ j → Nat.Prime (6 * j + 1) → bitmap_get_bit s.x7 j = true
  sorted : List.Chain' (· < ·) s.primes.p_array
  upper : ∀ e ∈ s.primes.p_array, e ≤ 3 ∨ e ≤ 6 * (k + 1) - 1
  primeElems : ∀ e ∈ s.primes.p_array, e ≤ n → Nat.Prime e
  shape : ∃ tl, s.primes.p_array = 2 :: 3 :: tl ∧
    ∀ e ∈ tl, ∃ x, 1 ≤ x ∧ x ≤ k + 1 ∧ (e = 6 * x - 1 ∨ e = 6 * x + 1)

theorem chain'_append_lt (l : List Nat) (a : Nat) (hl : List.Chain' (· < ·) l)
    (ha : ∀ e ∈ l, e < a) : List.Chain' (· < ·) (l ++ [a]) := by
  rw [List.chain'_append]
  refine ⟨hl, List.chain'_singleton a, ?_⟩
  intro x hx y hy
  obtain ⟨hne, rfl⟩ := List.mem_getLast?_eq_getLast hx
  simp only [List.head?_cons, Option.mem_def, Option.some.injEq] at hy
  subst hy
  exact ha _ (List.getLast_mem hne)

theorem izIdx_eq (q : Nat) : izIdx q = (q + 1) / 6 := rfl

/-- The first half of iteration `x = k + 1` turns the invariant at `k` into
the intermediate invariant. -/
theorem sieveInv_B5 (n ns xn k : Nat) (s : SvState)
    (hns : ns = isqrt n + 1) (hxn : xn = n / 6 + 1) (hn : 10 ≤ n) (hxk : k + 1 < xn)
    (hinv : SieveInv n ns xn k s) :
    SieveInvH n ns xn k (sieveIZB5 ns xn s (k + 1)) := by
  obtain ⟨ha5, ha7, hb5, hb7, hsort, hupper, hprime, hshape⟩ := hinv
  have hvq : iZ (k + 1) (-1) = 6 * (k + 1) - 1 := iZ_neg_one (k + 1)
  rcases Bool.eq_false_or_eq_true (bitmap_get_bit s.x5 (k + 1)) with hb | hb
  case inr =>
    -- bit not set: the iZ- value of index k+1 is not prime, nothing happens
    rw [sieveIZB5_false ns xn s (k + 1) hb]
    have hnp : ∀ q, Nat.Prime q → q % 6 = 5 → izIdx q = k + 1 → False := by
      intro q hq h6 hidx
      rw [izIdx_eq] at hidx
      have hqe : q = 6 * (k + 1) - 1 := by omega
      have := hb5 (k + 1) (by omega) (hqe ▸ hq)
      rw [this] at hb
      exact Bool.noConfusion hb
    refine ⟨?_, ?_, hb5, hb7, hsort, ?_, hprime, ?_⟩
    · intro j q hj hjxn hqp hqns hdvd hne hidx
      rcases hidx with hle | ⟨h6, hle⟩
      · exact ha5 j q hj hjxn hqp hqns hdvd hne hle
      · rcases Nat.lt_or_ge k (izIdx q) with hgt | hle2
        · exact (hnp q hqp h6 (by omega)).elim
        · exact ha5 j q hj hjxn hqp hqns hdvd hne hle2
    · intro j q hj hjxn hqp hqns hdvd hne hidx
      rcases hidx with hle | ⟨h6, hle⟩
      · exact ha7 j q hj hjxn hqp hqns hdvd hne hle
      · rcases Nat.lt_or_ge k (izIdx q) with hgt | hle2
        · exact (hnp q hqp h6 (by omega)).elim
        · exact ha7 j q hj hjxn hqp hqns hdvd hne hle2
    · intro e he
      rcases hupper e he with h | h
      · exact Or.inl h
      · exact Or.inr (by omega)
    · obtain ⟨tl, htl, hmem⟩ := hshape
      exact ⟨tl, htl, fun e he => by
        obtain ⟨x, hx1, hxk2, hor⟩ := hmem e he
        exact ⟨x, hx1, by omega, hor⟩⟩
  case inl =>
    by_cases hsm : iZ (k + 1) (-1) < ns
    · -- prime found and below the root bound: both strides are cleared
      rw [sieveIZB5_true_small ns xn s (k + 1) hb hsm]
      rw [hvq] at hsm ⊢
      have hQp : Nat.Prime (6 * (k + 1) - 1) → True := fun _ => trivial
      refine ⟨?_, ?_, ?_, ?_, ?_, ?_, ?_, ?_⟩
      · -- a5
        intro j q hj hjxn hqp hqns hdvd hne hidx
        have hcl : bitmap_get_bit s.x5 j = false →
            bitmap_get_bit (bitmap_clear_mod_p s.x5 (6 * (k + 1) - 1)
              ((6 * (k + 1) - 1) * (k + 1) + (k + 1)) xn) j = false :=
          fun h => clear_mod_p_false _ _ _ _ _ h
        rcases hidx with hle | ⟨h6, hle⟩
        · exact hcl (ha5 j q hj hjxn hqp hqns hdvd hne hle)
        · rcases Nat.lt_or_ge k (izIdx q) with hgt | hle2
          · have hqe : q = 6 * (k + 1) - 1 := by rw [izIdx_eq] at hle hgt; omega
            subst hqe
            rcases cov55 (k + 1) j (by omega) hj hdvd hne with ⟨hst, hmod⟩ |
              ⟨r, hrp, hrdvd, hrne, hrlt, hridx⟩
            · exact clear_mod_p_hit _ _ _ _ _ hst hjxn hmod
            · exact hcl (ha5 j r hj hjxn hrp (by omega) hrdvd hrne (by omega))
          · exact hcl (ha5 j q hj hjxn hqp hqns hdvd hne hle2)
      · -- a7
        intro j q hj hjxn hqp hqns hdvd hne hidx
        have hcl : bitmap_get_bit s.x7 j = false →
            bitmap_get_bit (bitmap_clear_mod_p s.x7 (6 * (k + 1) - 1)
              ((6 * (k + 1) - 1) * (k + 1) - (k + 1)) xn) j = false :=
          fun h => clear_mod_p_false _ _ _ _ _ h
        rcases hidx with hle | ⟨h6, hle⟩
        · exact hcl (ha7 j q hj hjxn hqp hqns hdvd hne hle)
        · rcases Nat.lt_or_ge k (izIdx q) with hgt | hle2
          · have hqe : q = 6 * (k + 1) - 1 := by rw [izIdx_eq] at hle hgt; omega
            subst hqe
            rcases cov57 (k + 1) j (by omega) hj hdvd with ⟨hst, hmod⟩ |
              ⟨r, hrp, hrdvd, hrne, hrlt, hridx⟩
            · exact clear_mod_p_hit _ _ _ _ _ hst hjxn hmod
            · exact hcl (ha7 j r hj hjxn hrp (by omega) hrdvd hrne (by omega))
          · exact hcl (ha7 j q hj hjxn hqp hqns hdvd hne hle2)
      · -- b5
        intro j hj hjp
        rw [clear_keep55 s.x5 (k + 1) xn j (by omega) hjp]
        exact hb5 j hj hjp
      · -- b7
        intro j hj hjp
        rw [clear_keep57 s.x7 (k + 1) xn j (by omega) hjp]
        exact hb7 j hj hjp
      · -- sorted
        show List.Chain' (· < ·) (s.primes.p_array ++ [6 * (k + 1) - 1])
        refine chain'_append_lt _ _ hsort ?_
        intro e he
        rcases hupper e he with h | h <;> omega
      · -- upper
        intro e he
        rcases List.mem_append.mp he with h | h
        · rcases hupper e h with h2 | h2
          · exact Or.inl h2
          · exact Or.inr (by omega)
        · simp only [List.mem_singleton] at h
          exact Or.inr (by omega)
      · -- primeElems
        intro e he hen
        rcases List.mem_append.mp he with h | h
        · exact hprime e h hen
        · simp only [List.mem_singleton] at h
          subst h
          by_contra hcomp
          have hQ5 : 5 ≤ 6 * (k + 1) - 1 := by omega
          have h0 : 0 < 6 * (k + 1) - 1 := by omega
          have hm := Nat.minFac_prime (n := 6 * (k + 1) - 1) (by omega)
          have hmd := Nat.minFac_dvd (6 * (k + 1) - 1)
          have hmm : (6 * (k + 1) - 1).minFac * (6 * (k + 1) - 1).minFac ≤
              6 * (k + 1) - 1 := by
            have := Nat.minFac_sq_le_self h0 hcomp
            simpa [Nat.pow_two] using this
          have hm6 := prime_divisor_of_iZ_mod6 _ _ hm hmd (Or.inr (by omega))
          have hm5 : 5 ≤ (6 * (k + 1) - 1).minFac := by
            have := hm.two_le
            omega
          have h5m : 5 * (6 * (k + 1) - 1).minFac ≤
              (6 * (k + 1) - 1).minFac * (6 * (k + 1) - 1).minFac :=
            Nat.mul_le_mul_right _ hm5
          have hmlt : (6 * (k + 1) - 1).minFac < ns := by
            rw [hns, isqrt_eq]
            have : (6 * (k + 1) - 1).minFac ≤ Nat.sqrt n :=
              Nat.le_sqrt.mpr (by omega)
            omega
          have hmne : (6 * (k + 1) - 1).minFac ≠ 6 * (k + 1) - 1 := by omega
          have hidx : izIdx ((6 * (k + 1) - 1).minFac) ≤ k := by
            rw [izIdx_eq]; omega
          have := ha5 (k + 1) _ (by omega) hxk hm hmlt hmd hmne hidx
          rw [this] at hb
          exact Bool.noConfusion hb
      · -- shape
        obtain ⟨tl, htl, hmem⟩ := hshape
        refine ⟨tl ++ [6 * (k + 1) - 1], ?_, ?_⟩
        · show s.primes.p_array ++ [6 * (k + 1) - 1] = _
          rw [htl]
          rfl
        · intro e he
          rcases List.mem_append.mp he with h | h
          · obtain ⟨x, hx1, hxk2, hor⟩ := hmem e h
            exact ⟨x, hx1, by omega, hor⟩
          · simp only [List.mem_singleton] at h
            exact ⟨k + 1, by omega, by omega, Or.inl h⟩
    · -- prime found but at or above the root bound: only appended
      rw [sieveIZB5_true_big ns xn s (k + 1) hb hsm]
      rw [hvq] at hsm ⊢
      refine ⟨?_, ?_, hb5, hb7, ?_, ?_, ?_, ?_⟩
      · intro j q hj hjxn hqp hqns hdvd hne hidx
        rcases hidx with hle | ⟨h6, hle⟩
        · exact ha5 j q hj hjxn hqp hqns hdvd hne hle
        · rcases Nat.lt_or_ge k (izIdx q) with hgt | hle2
          · have hqe : q = 6 * (k + 1) - 1 := by rw [izIdx_eq] at hle hgt; omega
            exact absurd hqns (by omega)
          · exact ha5 j q hj hjxn hqp hqns hdvd hne hle2
      · intro j q hj hjxn hqp hqns hdvd hne hidx
        rcases hidx with hle | ⟨h6, hle⟩
        · exact ha7 j q hj hjxn hqp hqns hdvd hne hle
        · rcases Nat.lt_or_ge k (izIdx q) with hgt | hle2
          · have hqe : q = 6 * (k + 1) - 1 := by rw [izIdx_eq] at hle hgt; omega
            exact absurd hqns (by omega)
          · exact ha7 j q hj hjxn hqp hqns hdvd hne hle2
      · show List.Chain' (· < ·) (s.primes.p_array ++ [6 * (k + 1) - 1])
        refine chain'_append_lt _ _ hsort ?_
        intro e he
        rcases hupper e he with h | h <;> omega
      · intro e he
        rcases List.mem_append.mp he with h | h
        · rcases hupper e h with h2 | h2
          · exact Or.inl h2
          · exact Or.inr (by omega)
        · simp only [List.mem_singleton] at h
          exact Or.inr (by omega)
      · intro e he hen
        rcases List.mem_append.mp he with h | h
        · exact hprime e h hen
        · simp only [List.mem_singleton] at h
          subst h
          by_contra hcomp
          have h0 : 0 < 6 * (k + 1) - 1 := by omega
          have hm := Nat.minFac_prime (n := 6 * (k + 1) - 1) (by omega)
          have hmd := Nat.minFac_dvd (6 * (k + 1) - 1)
          have hmm : (6 * (k + 1) - 1).minFac * (6 * (k + 1) - 1).minFac ≤
              6 * (k + 1) - 1 := by
            have := Nat.minFac_sq_le_self h0 hcomp
            simpa [Nat.pow_two] using this
          have hm6 := prime_divisor_of_iZ_mod6 _ _ hm hmd (Or.inr (by omega))
          have hm5 : 5 ≤ (6 * (k + 1) - 1).minFac := by
            have := hm.two_le
            omega
          have h5m : 5 * (6 * (k + 1) - 1).minFac ≤
              (6 * (k + 1) - 1).minFac * (6 * (k + 1) - 1).minFac :=
            Nat.mul_le_mul_right _ hm5
          have hmlt : (6 * (k + 1) - 1).minFac < ns := by
            rw [hns, isqrt_eq]
            have : (6 * (k + 1) - 1).minFac ≤ Nat.sqrt n :=
              Nat.le_sqrt.mpr (by omega)
            omega
          have hmne : (6 * (k + 1) - 1).minFac ≠ 6 * (k + 1) - 1 := by omega
          have hidx : izIdx ((6 * (k + 1) - 1).minFac) ≤ k := by
            rw [izIdx_eq]; omega
          have := ha5 (k + 1) _ (by omega) hxk hm hmlt hmd hmne hidx
          rw [this] at hb
          exact Bool.noConfusion hb
      · obtain ⟨tl, htl, hmem⟩ := hshape
        refine ⟨tl ++ [6 * (k + 1) - 1], ?_, ?_⟩
        · show s.primes.p_array ++ [6 * (k + 1) - 1] = _
          rw [htl]
          rfl
        · intro e he
          rcases List.mem_append.mp he with h | h
          · obtain ⟨x, hx1, hxk2, hor⟩ := hmem e h
            exact ⟨x, hx1, by omega, hor⟩
          · simp only [List.mem_singleton] at h
            exact ⟨k + 1, by omega, by omega, Or.inl h⟩

/-- The second half of iteration `x = k + 1` turns the intermediate invariant
into the invariant at `k + 1`. -/
theorem sieveInv_B7 (n ns xn k : Nat) (s : SvState)
    (hns : ns = isqrt n + 1) (hxn : xn = n / 6 + 1) (hn : 10 ≤ n) (hxk : k + 1 < xn)
    (hinv : SieveInvH n ns xn k s) :
    SieveInv n ns xn (k + 1) (sieveIZB7 ns xn s (k + 1)) := by
  obtain ⟨ha5, ha7, hb5, hb7, hsort, hupper, hprime, hshape⟩ := hinv
  have hvq : iZ (k + 1) 1 = 6 * (k + 1) + 1 := iZ_pos_one (k + 1)
  rcases Bool.eq_false_or_eq_true (bitmap_get_bit s.x7 (k + 1)) with hb | hb
  case inr =>
    -- bit not set: the iZ+ value of index k+1 is not prime, nothing happens
    rw [sieveIZB7_false ns xn s (k + 1) hb]
    have hnp : ∀ q, Nat.Prime q → q % 6 = 1 → izIdx q = k + 1 → False := by
      intro q hq h6 hidx
      rw [izIdx_eq] at hidx
      have hqe : q = 6 * (k + 1) + 1 := by omega
      have := hb7 (k + 1) (by omega) (hqe ▸ hq)
      rw [this] at hb
      exact Bool.noConfusion hb
    refine ⟨?_, ?_, hb5, hb7, hsort, ?_, hprime, ?_⟩
    · intro j q hj hjxn hqp hqns hdvd hne hidx
      rcases Nat.lt_or_ge k (izIdx q) with hgt | hle2
      · have hq5 : 5 ≤ q := by rw [izIdx_eq] at hgt; omega
        rcases prime_ge5_mod6 q hqp hq5 with h6 | h6
        · exact (hnp q hqp h6 (by omega)).elim
        · exact ha5 j q hj hjxn hqp hqns hdvd hne (Or.inr ⟨h6, hidx⟩)
      · exact ha5 j q hj hjxn hqp hqns hdvd hne (Or.inl hle2)
    · intro j q hj hjxn hqp hqns hdvd hne hidx
      rcases Nat.lt_or_ge k (izIdx q) with hgt | hle2
      · have hq5 : 5 ≤ q := by rw [izIdx_eq] at hgt; omega
        rcases prime_ge5_mod6 q hqp hq5 with h6 | h6
        · exact (hnp q hqp h6 (by omega)).elim
        · exact ha7 j q hj hjxn hqp hqns hdvd hne (Or.inr ⟨h6, hidx⟩)
      · exact ha7 j q hj hjxn hqp hqns hdvd hne (Or.inl hle2)
    · intro e he
      rcases hupper e he with h | h
      · exact Or.inl h
      · exact Or.inr (by omega)
    · obtain ⟨tl, htl, hmem⟩ := hshape
      exact ⟨tl, htl, hmem⟩
  case inl =>
    by_cases hsm : iZ (k + 1) 1 < ns
    · -- prime found and below the root bound: both strides are cleared
      rw [sieveIZB7_true_small ns xn s (k + 1) hb hsm]
      rw [hvq] at hsm ⊢
      refine ⟨?_, ?_, ?_, ?_, ?_, ?_, ?_, ?_⟩
      · -- a5
        intro j q hj hjxn hqp hqns hdvd hne hidx
        have hcl : bitmap_get_bit s.x5 j = false →
            bitmap_get_bit (bitmap_clear_mod_p s.x5 (6 * (k + 1) + 1)
              ((6 * (k + 1) + 1) * (k + 1) - (k + 1)) xn) j = false :=
          fun h => clear_mod_p_false _ _ _ _ _ h
        rcases Nat.lt_or_ge k (izIdx q) with hgt | hle2
        · have hq5 : 5 ≤ q := by rw [izIdx_eq] at hgt; omega
          rcases prime_ge5_mod6 q hqp hq5 with h6 | h6
          · have hqe : q = 6 * (k + 1) + 1 := by rw [izIdx_eq] at hgt hidx; omega
            subst hqe
            rcases cov75 (k + 1) j (by omega) hj hdvd with ⟨hst, hmod⟩ |
              ⟨r, hrp, hrdvd, hrne, hrlt, hridx⟩
            · exact clear_mod_p_hit _ _ _ _ _ hst hjxn hmod
            · exact hcl (ha5 j r hj hjxn hrp (by omega) hrdvd hrne (Or.inl (by omega)))
          · exact hcl (ha5 j q hj hjxn hqp hqns hdvd hne (Or.inr ⟨h6, hidx⟩))
        · exact hcl (ha5 j q hj hjxn hqp hqns hdvd hne (Or.inl hle2))
      · -- a7
        intro j q hj hjxn hqp hqns hdvd hne hidx
        have hcl : bitmap_get_bit s.x7 j = false →
            bitmap_get_bit (bitmap_clear_mod_p s.x7 (6 * (k + 1) + 1)
              ((6 * (k + 1) + 1) * (k + 1) + (k + 1)) xn) j = false :=
          fun h => clear_mod_p_false _ _ _ _ _ h
        rcases Nat.lt_or_ge k (izIdx q) with hgt | hle2
        · have hq5 : 5 ≤ q := by rw [izIdx_eq] at hgt; omega
          rcases prime_ge5_mod6 q hqp hq5 with h6 | h6
          · have hqe : q = 6 * (k + 1) + 1 := by rw [izIdx_eq] at hgt hidx; omega
            subst hqe
            rcases cov77 (k + 1) j (by omega) hj hdvd hne with ⟨hst, hmod⟩ |
              ⟨r, hrp, hrdvd, hrne, hrlt, hridx⟩
            · exact clear_mod_p_hit _ _ _ _ _ hst hjxn hmod
            · exact hcl (ha7 j r hj hjxn hrp (by omega) hrdvd hrne (Or.inl (by omega)))
          · exact hcl (ha7 j q hj hjxn hqp hqns hdvd hne (Or.inr ⟨h6, hidx⟩))
        · exact hcl (ha7 j q hj hjxn hqp hqns hdvd hne (Or.inl hle2))
      · -- b5
        intro j hj hjp
        rw [clear_keep75 s.x5 (k + 1) xn j (by omega) hjp]
        exact hb5 j hj hjp
      · -- b7
        intro j hj hjp
        rw [clear_keep77 s.x7 (k + 1) xn j (by omega) hjp]
        exact hb7 j hj hjp
      · -- sorted
        show List.Chain' (· < ·) (s.primes.p_array ++ [6 * (k + 1) + 1])
        refine chain'_append_lt _ _ hsort ?_
        intro e he
        rcases hupper e he with h | h <;> omega
      · -- upper
        intro e he
        rcases List.mem_append.mp he with h | h
        · rcases hupper e h with h2 | h2
          · exact Or.inl h2
          · exact Or.inr (by omega)
        · simp only [List.mem_singleton] at h
          exact Or.inr (by omega)
      · -- primeElems
        intro e he hen
        rcases List.mem_append.mp he with h | h
        · exact hprime e h hen
        · simp only [List.mem_singleton] at h
          subst h
          by_contra hcomp
          have h0 : 0 < 6 * (k + 1) + 1 := by omega
          have hm := Nat.minFac_prime (n := 6 * (k + 1) + 1) (by omega)
          have hmd := Nat.minFac_dvd (6 * (k + 1) + 1)
          have hmm : (6 * (k + 1) + 1).minFac * (6 * (k + 1) + 1).minFac ≤
              6 * (k + 1) + 1 := by
            have := Nat.minFac_sq_le_self h0 hcomp
            simpa [Nat.pow_two] using this
          have hm6 := prime_divisor_of_iZ_mod6 _ _ hm hmd (Or.inl (by omega))
          have hm5 : 5 ≤ (6 * (k + 1) + 1).minFac := by
            have := hm.two_le
            omega
          have h5m : 5 * (6 * (k + 1) + 1).minFac ≤
              (6 * (k + 1) + 1).minFac * (6 * (k + 1) + 1).minFac :=
            Nat.mul_le_mul_right _ hm5
          have hmlt : (6 * (k + 1) + 1).minFac < ns := by
            rw [hns, isqrt_eq]
            have : (6 * (k + 1) + 1).minFac ≤ Nat.sqrt n :=
              Nat.le_sqrt.mpr (by omega)
            omega
          have hmne : (6 * (k + 1) + 1).minFac ≠ 6 * (k + 1) + 1 := by omega
          have hidx : izIdx ((6 * (k + 1) + 1).minFac) ≤ k := by
            rw [izIdx_eq]; omega
          have := ha7 (k + 1) _ (by omega) hxk hm hmlt hmd hmne (Or.inl hidx)
          rw [this] at hb
          exact Bool.noConfusion hb
      · -- shape
        obtain ⟨tl, htl, hmem⟩ := hshape
        refine ⟨tl ++ [6 * (k + 1) + 1], ?_, ?_⟩
        · show s.primes.p_array ++ [6 * (k + 1) + 1] = _
          rw [htl]
          rfl
        · intro e he
          rcases List.mem_append.mp he with h | h
          · obtain ⟨x, hx1, hxk2, hor⟩ := hmem e h
            exact ⟨x, hx1, by omega, hor⟩
          · simp only [List.mem_singleton] at h
            exact ⟨k + 1, by omega, by omega, Or.inr h⟩
    · -- prime found but at or above the root bound: only appended
      rw [sieveIZB7_true_big ns xn s (k + 1) hb hsm]
      rw [hvq] at hsm ⊢
      refine ⟨?_, ?_, hb5, hb7, ?_, ?_, ?_, ?_⟩
      · intro j q hj hjxn hqp hqns hdvd hne hidx
        rcases Nat.lt_or_ge k (izIdx q) with hgt | hle2
        · have hq5 : 5 ≤ q := by rw [izIdx_eq] at hgt; omega
          rcases prime_ge5_mod6 q hqp hq5 with h6 | h6
          · have hqe : q = 6 * (k + 1) + 1 := by rw [izIdx_eq] at hgt hidx; omega
            exact absurd hqns (by omega)
          · exact ha5 j q hj hjxn hqp hqns hdvd hne (Or.inr ⟨h6, hidx⟩)
        · exact ha5 j q hj hjxn hqp hqns hdvd hne (Or.inl hle2)
      · intro j q hj hjxn hqp hqns hdvd hne hidx
        rcases Nat.lt_or_ge k (izIdx q) with hgt | hle2
        · have hq5 : 5 ≤ q := by rw [izIdx_eq] at hgt; omega
          rcases prime_ge5_mod6 q hqp hq5 with h6 | h6
          · have hqe : q = 6 * (k + 1) + 1 := by rw [izIdx_eq] at hgt hidx; omega
            exact absurd hqns (by omega)
          · exact ha7 j q hj hjxn hqp hqns hdvd hne (Or.inr ⟨h6, hidx⟩)
        · exact ha7 j q hj hjxn hqp hqns hdvd hne (Or.inl hle2)
      · show List.Chain' (· < ·) (s.primes.p_array ++ [6 * (k + 1) + 1])
        refine chain'_append_lt _ _ hsort ?_
        intro e he
        rcases hupper e he with h | h <;> omega
      · intro e he
        rcases List.mem_append.mp he with h | h
        · rcases hupper e h with h2 | h2
          · exact Or.inl h2
          · exact Or.inr (by omega)
        · simp only [List.mem_singleton] at h
          exact Or.inr (by omega)
      · intro e he hen
        rcases List.mem_append.mp he with h | h
        · exact hprime e h hen
        · simp only [List.mem_singleton] at h
          subst h
          by_contra hcomp
          have h0 : 0 < 6 * (k + 1) + 1 := by omega
          have hm := Nat.minFac_prime (n := 6 * (k + 1) + 1) (by omega)
          have hmd := Nat.minFac_dvd (6 * (k + 1) + 1)
          have hmm : (6 * (k + 1) + 1).minFac * (6 * (k + 1) + 1).minFac ≤
              6 * (k + 1) + 1 := by
            have := Nat.minFac_sq_le_self h0 hcomp
            simpa [Nat.pow_two] using this
          have hm6 := prime_divisor_of_iZ_mod6 _ _ hm hmd (Or.inl (by omega))
          have hm5 : 5 ≤ (6 * (k + 1) + 1).minFac := by
            have := hm.two_le
            omega
          have h5m : 5 * (6 * (k + 1) + 1).minFac ≤
              (6 * (k + 1) + 1).minFac * (6 * (k + 1) + 1).minFac :=
            Nat.mul_le_mul_right _ hm5
          have hmlt : (6 * (k + 1) + 1).minFac < ns := by
            rw [hns, isqrt_eq]
            have : (6 * (k + 1) + 1).minFac ≤ Nat.sqrt n :=
              Nat.le_sqrt.mpr (by omega)
            omega
          have hmne : (6 * (k + 1) + 1).minFac ≠ 6 * (k + 1) + 1 := by omega
          have hidx : izIdx ((6 * (k + 1) + 1).minFac) ≤ k := by
            rw [izIdx_eq]; omega
          have := ha7 (k + 1) _ (by omega) hxk hm hmlt hmd hmne (Or.inl hidx)
          rw [this] at hb
          exact Bool.noConfusion hb
      · obtain ⟨tl, htl, hmem⟩ := hshape
        refine ⟨tl ++ [6 * (k + 1) + 1], ?_, ?_⟩
        · show s.primes.p_array ++ [6 * (k + 1) + 1] = _
          rw [htl]
          rfl
        · intro e he
          rcases List.mem_append.mp he with h | h
          · obtain ⟨x, hx1, hxk2, hor⟩ := hmem e h
            exact ⟨x, hx1, by omega, hor⟩
          · simp only [List.mem_singleton] at h
            exact ⟨k + 1, by omega, by omega, Or.inr h⟩

/-- One full iteration preserves the invariant. -/
theorem sieveInv_step (n ns xn k : Nat) (s : SvState)
    (hns : ns = isqrt n + 1) (hxn : xn = n / 6 + 1) (hn : 10 ≤ n) (hxk : k + 1 < xn)
    (hinv : SieveInv n ns xn k s) :
    SieveInv n ns xn (k + 1) (sieveIZStep ns xn s (k + 1)) := by
  rw [sieveIZStep_eq]
  exact sieveInv_B7 n ns xn k _ hns hxn hn hxk (sieveInv_B5 n ns xn k s hns hxn hn hxk hinv)

/-- The invariant holds before the loop starts. -/
theorem sieveInv_init (n ns xn : Nat) :
    SieveInv n ns xn 0 ⟨bitmap_set_all (bitmap_create (xn + 1)),
      bitmap_set_all (bitmap_create (xn + 1)), ⟨[2, 3]⟩⟩ := by
  refine ⟨?_, ?_, ?_, ?_, ?_, ?_, ?_, ?_⟩
  · intro j q hj hjxn hqp hqns hdvd hne hidx
    rw [izIdx_eq] at hidx
    have h2 := hqp.two_le
    have hq : q = 2 ∨ q = 3 ∨ q = 4 := by omega
    rcases hq with rfl | rfl | rfl
    · obtain ⟨c, hc⟩ := hdvd
      omega
    · obtain ⟨c, hc⟩ := hdvd
      omega
    · exact absurd hqp (by norm_num)
  · intro j q hj hjxn hqp hqns hdvd hne hidx
    rw [izIdx_eq] at hidx
    have h2 := hqp.two_le
    have hq : q = 2 ∨ q = 3 ∨ q = 4 := by omega
    rcases hq with rfl | rfl | rfl
    · obtain ⟨c, hc⟩ := hdvd
      omega
    · obtain ⟨c, hc⟩ := hdvd
      omega
    · exact absurd hqp (by norm_num)
  · intro j hj hjp
    rfl
  · intro j hj hjp
    rfl
  · show List.Chain' (· < ·) ([2, 3] : List Nat)
    exact List.chain'_cons.mpr ⟨by omega, List.chain'_singleton 3⟩
  · intro e he
    have h23 : e = 2 ∨ e = 3 := by simpa using he
    left
    omega
  · intro e he hen
    have h23 : e = 2 ∨ e = 3 := by simpa using he
    rcases h23 with rfl | rfl
    · exact Nat.prime_two
    · exact Nat.prime_three
  · exact ⟨[], rfl, by simp⟩

/-- The invariant holds after each prefix of the main loop. -/
theorem sieveInv_loop (n ns xn : Nat) (hns : ns = isqrt n + 1) (hxn : xn = n / 6 + 1)
    (hn : 10 ≤ n) :
    ∀ m, m < xn → SieveInv n ns xn m ((List.range' 1 m).foldl (sieveIZStep ns xn)
      ⟨bitmap_set_all (bitmap_create (xn + 1)), bitmap_set_all (bitmap_create (xn + 1)),
        ⟨[2, 3]⟩⟩) := by
  intro m
  induction m with
  | zero =>
    intro _
    simpa using sieveInv_init n ns xn
  | succ m ih =>
    intro hm
    have hrange : List.range' 1 (m + 1) = List.range' 1 m ++ [1 + 1 * m] :=
      List.range'_concat 1 m
    have h1 : 1 + 1 * m = m + 1 := by omega
    rw [hrange, h1, List.foldl_append, List.foldl_cons, List.foldl_nil]
    exact sieveInv_step n ns xn m _ hns hxn hn (by omega) (ih (by omega))

theorem dropLastIfGt_of_getLast? (n : Nat) (o : PRIMES_OBJ) (l : Nat)
    (h : o.p_array.getLast? = some l) :
    dropLastIfGt n o = if l > n then ⟨o.p_array.dropLast⟩ else o := by
  unfold dropLastIfGt
  rw [h]

/-- Characterization of `sieve_iZ` for `n ≥ 10`: the result exists, is sorted,
starts `2, 3` followed by `iZ` values, and consists of primes `≤ n`. -/
theorem sieve_iZ_spec (n : Nat) (hn : 10 ≤ n) :
    ∃ o tl, sieve_iZ n = some o ∧ o.p_array = 2 :: 3 :: tl ∧
      List.Chain' (· < ·) o.p_array ∧
      (∀ e ∈ o.p_array, e ≤ n ∧ Nat.Prime e) ∧
      (∀ e ∈ tl, ∃ x, 1 ≤ x ∧ (e = 6 * x - 1 ∨ e = 6 * x + 1)) := by
  obtain ⟨ha5, ha7, hb5, hb7, hsort, hupper, hprime, hshape⟩ :=
    sieveInv_loop n (isqrt n + 1) (n / 6 + 1) rfl rfl hn (n / 6) (by omega)
  obtain ⟨tl, htl, hmem⟩ := hshape
  have heq : sieve_iZ n = some (dropLastIfGt n
      ((List.range' 1 (n / 6)).foldl (sieveIZStep (isqrt n + 1) (n / 6 + 1))
        ⟨bitmap_set_all (bitmap_create (n / 6 + 1 + 1)),
         bitmap_set_all (bitmap_create (n / 6 + 1 + 1)), ⟨[2, 3]⟩⟩).primes) := by
    rw [sieve_iZ, if_neg (by omega)]
    rfl
  set F := (List.range' 1 (n / 6)).foldl (sieveIZStep (isqrt n + 1) (n / 6 + 1))
    ⟨bitmap_set_all (bitmap_create (n / 6 + 1 + 1)),
     bitmap_set_all (bitmap_create (n / 6 + 1 + 1)), ⟨[2, 3]⟩⟩ with hF
  have hLne : F.primes.p_array ≠ [] := by rw [htl]; simp
  have hlast := List.getLast?_eq_getLast_of_ne_nil hLne
  have hdecomp := List.dropLast_append_getLast hLne
  have hpw : List.Pairwise (· < ·) F.primes.p_array :=
    List.chain'_iff_pairwise.mp hsort
  have hlastmem : F.primes.p_array.getLast hLne ∈ F.primes.p_array :=
    List.getLast_mem hLne
  have hdl_lt : ∀ e ∈ F.primes.p_array.dropLast, e < F.primes.p_array.getLast hLne := by
    intro e he
    have hpw2 : List.Pairwise (· < ·)
        (F.primes.p_array.dropLast ++ [F.primes.p_array.getLast hLne]) := by
      rw [hdecomp]
      exact hpw
    have h3 := (List.pairwise_append.mp hpw2).2.2 e he
    exact h3 _ (by simp)
  have hdodef : dropLastIfGt n F.primes =
      (if F.primes.p_array.getLast hLne > n then
        (⟨F.primes.p_array.dropLast⟩ : PRIMES_OBJ) else F.primes) :=
    dropLastIfGt_of_getLast? n F.primes _ hlast
  by_cases hl : F.primes.p_array.getLast hLne > n
  · -- the last element exceeds n and is dropped
    have hup := hupper _ hlastmem
    have hl1 : F.primes.p_array.getLast hLne = n + 1 := by
      rcases hup with h | h
      · omega
      · omega
    have htlne : tl ≠ [] := by
      rintro rfl
      have h3 : F.primes.p_array.getLast? = some 3 := by
        rw [htl]
        rfl
      rw [hlast] at h3
      have h4 : F.primes.p_array.getLast hLne = 3 := by
        injection h3
      omega
    obtain ⟨h0, t0, rfl⟩ : ∃ h0 t0, tl = h0 :: t0 := by
      cases tl with
      | nil => exact absurd rfl htlne
      | cons h0 t0 => exact ⟨h0, t0, rfl⟩
    refine ⟨⟨F.primes.p_array.dropLast⟩, (h0 :: t0).dropLast, ?_, ?_, ?_, ?_, ?_⟩
    · rw [heq, hdodef, if_pos hl]
    · show F.primes.p_array.dropLast = 2 :: 3 :: (h0 :: t0).dropLast
      rw [htl]
      rfl
    · show List.Chain' (· < ·) F.primes.p_array.dropLast
      refine List.chain'_iff_pairwise.mpr ?_
      exact List.Pairwise.sublist (List.dropLast_sublist _) hpw
    · intro e he
      have hel : e < F.primes.p_array.getLast hLne := hdl_lt e he
      have hemem : e ∈ F.primes.p_array := (List.dropLast_sublist _).subset he
      exact ⟨by omega, hprime e hemem (by omega)⟩
    · intro e he
      have : e ∈ h0 :: t0 := (List.dropLast_sublist _).subset he
      obtain ⟨x, hx1, _, hor⟩ := hmem e this
      exact ⟨x, hx1, hor⟩
  · -- the last element is within range and kept
    refine ⟨F.primes, tl, ?_, htl, hsort, ?_, ?_⟩
    · rw [heq, hdodef, if_neg hl]
    · intro e he
      have he' : e ∈ F.primes.p_array.dropLast ++ [F.primes.p_array.getLast hLne] := by
        rw [hdecomp]
        exact he
      rcases List.mem_append.mp he' with h | h
      · have hel : e < F.primes.p_array.getLast hLne := hdl_lt e h
        exact ⟨by omega, hprime e he (by omega)⟩
      · have he2 : e = F.primes.p_array.getLast hLne := by simpa using h
        have hle : e ≤ n := by rw [he2]; omega
        exact ⟨hle, hprime e he hle⟩
    · intro e he
      obtain ⟨x, hx1, _, hor⟩ := hmem e he
      exact ⟨x, hx1, hor⟩

/-- Claim C6: for every `n ≥ 10`, `sieve_iZ(n)` succeeds and the last element
of its prime list is at most `n` and is prime. -/
theorem C6_sieve_iZ_last_le_and_prime (n : Nat) (hn : 10 ≤ n) :
    ∃ o l, sieve_iZ n = some o ∧ o.p_array.getLast? = some l ∧ l ≤ n ∧ Nat.Prime l := by
  obtain ⟨o, tl, heq, hshape2, hsort2, helem, htail⟩ := sieve_iZ_spec n hn
  have hne : o.p_array ≠ [] := by rw [hshape2]; simp
  refine ⟨o, o.p_array.getLast hne, heq, List.getLast?_eq_getLast_of_ne_nil hne, ?_, ?_⟩
  · exact (helem _ (List.getLast_mem hne)).1
  · exact (helem _ (List.getLast_mem hne)).2

theorem C6_sieve_iZ_last_le_and_prime_witness :
    10 ≤ 10 ∧ ∃ o l, sieve_iZ 10 = some o ∧ o.p_array.getLast? = some l ∧ l ≤ 10 ∧
      Nat.Prime l :=
  ⟨by decide, C6_sieve_iZ_last_le_and_prime 10 (by decide)⟩


/-- Indices hit by the stride that `solve_for_x_gmp` anchors carry values
divisible by `p`: the congruence `y*vx + j = x_p (mod p)` holds on the whole
stride, and `p | 6*x_p + matrix_id`. -/
theorem stride_dvd_gmp (id : Int) (hid : id = 1 ∨ id = -1) (p vx y j : Nat)
    (hp : Nat.Prime p) (h5 : 5 ≤ p)
    (hst : solve_for_x_gmp id p vx y ≤ j)
    (hmod : (j - solve_for_x_gmp id p vx y) % p = 0) :
    (p : Int) ∣ 6 * ((y : Int) * vx + j) + id := by
  have hp0 : 0 < p := by omega
  have hpz : (p : Int) ≠ 0 := by exact_mod_cast hp.pos.ne'
  obtain ⟨d, hd⟩ := solveForXp_dvd id hid p hp h5
  have htnn : 0 ≤ ((vx : Int) * y - solveForXp id p).emod p := Int.emod_nonneg _ hpz
  have htlt : ((vx : Int) * y - solveForXp id p).emod p < p :=
    Int.emod_lt_of_pos _ (by exact_mod_cast hp0)
  have hsx : solve_for_x_gmp id p vx y =
      p - (((vx : Int) * y - solveForXp id p).emod p).toNat := rfl
  have htcast : ((((vx : Int) * y - solveForXp id p).emod p).toNat : Int) =
      ((vx : Int) * y - solveForXp id p).emod p := Int.toNat_of_nonneg htnn
  obtain ⟨c, hc⟩ := Nat.dvd_of_mod_eq_zero hmod
  rw [hsx] at hst hc
  have hj : (j : Int) = (p : Int) - (((vx : Int) * y - solveForXp id p).emod p).toNat +
      (p : Int) * c := by
    have hcast2 : ((p * c : Nat) : Int) = (p : Int) * c := by push_cast; ring
    omega
  obtain ⟨q2, hq2⟩ : (p : Int) ∣ ((vx : Int) * y - solveForXp id p) -
      (((vx : Int) * y - solveForXp id p).emod p).toNat := by
    rw [htcast]
    show (p : Int) ∣ ((vx : Int) * y - solveForXp id p) -
      ((vx : Int) * y - solveForXp id p) % (p : Int)
    exact ⟨((vx : Int) * y - solveForXp id p) / p, by rw [Int.emod_def]; ring⟩
  refine ⟨d + 6 + 6 * q2 + 6 * c, ?_⟩
  linear_combination 6 * hj + 6 * hq2 + hd

/-- The marking loop only clears bits: a cleared `x5` bit stays cleared. -/
theorem sieveVXMark_mono1 (vx rl : Nat) (lg : Bool) (y : Nat) :
    ∀ (l : List Nat) (s : Bitmap × Bitmap) (j : Nat),
      bitmap_get_bit s.1 j = false →
      bitmap_get_bit (sieveVXMark vx rl lg y l s).1 j = false := by
  intro l
  induction l with
  | nil => intro s j h; exact h
  | cons p ps ih =>
    intro s j h
    rw [sieveVXMark]
    by_cases h1 : vx % p = 0
    · rw [if_pos h1]
      exact ih s j h
    · rw [if_neg h1]
      by_cases h2 : ¬lg ∧ rl < p
      · rw [if_pos h2]
        exact h
      · rw [if_neg h2]
        exact ih _ j (clear_mod_p_false _ _ _ _ _ h)

/-- The marking loop only clears bits: a cleared `x7` bit stays cleared. -/
theorem sieveVXMark_mono2 (vx rl : Nat) (lg : Bool) (y : Nat) :
    ∀ (l : List Nat) (s : Bitmap × Bitmap) (j : Nat),
      bitmap_get_bit s.2 j = false →
      bitmap_get_bit (sieveVXMark vx rl lg y l s).2 j = false := by
  intro l
  induction l with
  | nil => intro s j h; exact h
  | cons p ps ih =>
    intro s j h
    rw [sieveVXMark]
    by_cases h1 : vx % p = 0
    · rw [if_pos h1]
      exact ih s j h
    · rw [if_neg h1]
      by_cases h2 : ¬lg ∧ rl < p
      · rw [if_pos h2]
        exact h
      · rw [if_neg h2]
        exact ih _ j (clear_mod_p_false _ _ _ _ _ h)

/-- In small-slab mode the marking loop keeps the `x5` bit of an index whose
`iZ-` value no prime at most `root_limit` divides. -/
theorem sieveVXMark_keep1 (vx rl y j : Nat)
    (hnd : ∀ p, Nat.Prime p → p ≤ rl → ¬ (p : Int) ∣ (6 * ((y : Int) * vx + j) + (-1))) :
    ∀ (l : List Nat), (∀ p ∈ l, Nat.Prime p ∧ 5 ≤ p) →
      ∀ s : Bitmap × Bitmap, bitmap_get_bit s.1 j = true →
      bitmap_get_bit (sieveVXMark vx rl false y l s).1 j = true := by
  intro l
  induction l with
  | nil => intro _ s h; exact h
  | cons p ps ih =>
    intro hl s h
    have hl' : ∀ q ∈ ps, Nat.Prime q ∧ 5 ≤ q := fun q hq => hl q (List.mem_cons_of_mem p hq)
    obtain ⟨hp, hp5⟩ := hl p (List.mem_cons_self p ps)
    rw [sieveVXMark]
    by_cases h1 : vx % p = 0
    · rw [if_pos h1]
      exact ih hl' s h
    · rw [if_neg h1]
      by_cases h2 : ¬(false : Bool) ∧ rl < p
      · rw [if_pos h2]
        exact h
      · rw [if_neg h2]
        have hple : p ≤ rl := by
          have h3 : ¬ rl < p := fun hc => h2 ⟨by simp, hc⟩
          omega
        refine ih hl' _ ?_
        have hmiss : ¬ (solve_for_x_gmp (-1) p vx y ≤ j ∧ j < vx ∧
            (j - solve_for_x_gmp (-1) p vx y) % p = 0) := by
          rintro ⟨hst, _, hmod⟩
          exact hnd p hp hple (stride_dvd_gmp (-1) (Or.inr rfl) p vx y j hp hp5 hst hmod)
        show bitmap_get_bit (bitmap_clear_mod_p s.1 p (solve_for_x_gmp (-1) p vx y) vx) j
          = true
        rw [clear_mod_p_miss _ _ _ _ _ hmiss]
        exact h

/-- In small-slab mode the marking loop keeps the `x7` bit of an index whose
`iZ+` value no prime at most `root_limit` divides. -/
theorem sieveVXMark_keep2 (vx rl y j : Nat)
    (hnd : ∀ p, Nat.Prime p → p ≤ rl → ¬ (p : Int) ∣ (6 * ((y : Int) * vx + j) + 1)) :
    ∀ (l : List Nat), (∀ p ∈ l, Nat.Prime p ∧ 5 ≤ p) →
      ∀ s : Bitmap × Bitmap, bitmap_get_bit s.2 j = true →
      bitmap_get_bit (sieveVXMark vx rl false y l s).2 j = true := by
  intro l
  induction l with
  | nil => intro _ s h; exact h
  | cons p ps ih =>
    intro hl s h
    have hl' : ∀ q ∈ ps, Nat.Prime q ∧ 5 ≤ q := fun q hq => hl q (List.mem_cons_of_mem p hq)
    obtain ⟨hp, hp5⟩ := hl p (List.mem_cons_self p ps)
    rw [sieveVXMark]
    by_cases h1 : vx % p = 0
    · rw [if_pos h1]
      exact ih hl' s h
    · rw [if_neg h1]
      by_cases h2 : ¬(false : Bool) ∧ rl < p
      · rw [if_pos h2]
        exact h
      · rw [if_neg h2]
        have hple : p ≤ rl := by
          have h3 : ¬ rl < p := fun hc => h2 ⟨by simp, hc⟩
          omega
        refine ih hl' _ ?_
        have hmiss : ¬ (solve_for_x_gmp 1 p vx y ≤ j ∧ j < vx ∧
            (j - solve_for_x_gmp 1 p vx y) % p = 0) := by
          rintro ⟨hst, _, hmod⟩
          exact hnd p hp hple (stride_dvd_gmp 1 (Or.inl rfl) p vx y j hp hp5 hst hmod)
        show bitmap_get_bit (bitmap_clear_mod_p s.2 p (solve_for_x_gmp 1 p vx y) vx) j
          = true
        rw [clear_mod_p_miss _ _ _ _ _ hmiss]
        exact h

/-- One emission iteration with both bits clear: only the gap advances. -/
theorem sieveVXEmit_step_ff (pp : Nat → Bool) (x5 x7 : Bitmap) (vx yvx fuel x gap : Nat)
    (o : VX_OBJ) (hx : x ≤ vx)
    (h5 : bitmap_get_bit x5 x = false) (h7 : bitmap_get_bit x7 x = false) :
    sieveVXEmit pp false x5 x7 vx yvx (fuel + 1) x gap o =
      sieveVXEmit pp false x5 x7 vx yvx fuel (x + 1) (gap + 6) o := by
  simp [sieveVXEmit, hx, h5, h7]

/-- One emission iteration with only the `x5` bit set: emit `gap + 4`. -/
theorem sieveVXEmit_step_t5 (pp : Nat → Bool) (x5 x7 : Bitmap) (vx yvx fuel x gap : Nat)
    (o : VX_OBJ) (hx : x ≤ vx)
    (h5 : bitmap_get_bit x5 x = true) (h7 : bitmap_get_bit x7 x = false) :
    sieveVXEmit pp false x5 x7 vx yvx (fuel + 1) x gap o =
      sieveVXEmit pp false x5 x7 vx yvx fuel (x + 1) 2 (vx_append_p_gap o (gap + 4)) := by
  simp [sieveVXEmit, hx, h5, h7]

/-- One emission iteration with only the `x7` bit set: emit `gap + 6`. -/
theorem sieveVXEmit_step_t7 (pp : Nat → Bool) (x5 x7 : Bitmap) (vx yvx fuel x gap : Nat)
    (o : VX_OBJ) (hx : x ≤ vx)
    (h5 : bitmap_get_bit x5 x = false) (h7 : bitmap_get_bit x7 x = true) :
    sieveVXEmit pp false x5 x7 vx yvx (fuel + 1) x gap o =
      sieveVXEmit pp false x5 x7 vx yvx fuel (x + 1) 0 (vx_append_p_gap o (gap + 6)) := by
  simp [sieveVXEmit, hx, h5, h7]

/-- One emission iteration with both bits set: emit `gap + 4` then `2`. -/
theorem sieveVXEmit_step_t5t7 (pp : Nat → Bool) (x5 x7 : Bitmap) (vx yvx fuel x gap : Nat)
    (o : VX_OBJ) (hx : x ≤ vx)
    (h5 : bitmap_get_bit x5 x = true) (h7 : bitmap_get_bit x7 x = true) :
    sieveVXEmit pp false x5 x7 vx yvx (fuel + 1) x gap o =
      sieveVXEmit pp false x5 x7 vx yvx fuel (x + 1) 0
        (vx_append_p_gap (vx_append_p_gap o (gap + 4)) 2) := by
  simp [sieveVXEmit, hx, h5, h7]

/-- The emission loop only appends gaps. -/
theorem sieveVXEmit_appends (pp : Nat → Bool) (x5 x7 : Bitmap) (vx yvx : Nat) :
    ∀ (fuel x gap : Nat) (o : VX_OBJ), ∃ l,
      (sieveVXEmit pp false x5 x7 vx yvx fuel x gap o).p_gaps = o.p_gaps ++ l := by
  intro fuel
  induction fuel with
  | zero =>
    intro x gap o
    exact ⟨[], by simp [sieveVXEmit]⟩
  | succ fuel ih =>
    intro x gap o
    by_cases hx : x ≤ vx
    · rcases Bool.eq_false_or_eq_true (bitmap_get_bit x5 x) with h5 | h5 <;>
        rcases Bool.eq_false_or_eq_true (bitmap_get_bit x7 x) with h7 | h7
      · rw [sieveVXEmit_step_t5t7 pp x5 x7 vx yvx fuel x gap o hx h5 h7]
        obtain ⟨l, hl⟩ := ih (x + 1) 0 (vx_append_p_gap (vx_append_p_gap o (gap + 4)) 2)
        exact ⟨[(gap + 4) % 65536, 2 % 65536] ++ l, by
          rw [hl]
          simp [vx_append_p_gap]⟩
      · rw [sieveVXEmit_step_t5 pp x5 x7 vx yvx fuel x gap o hx h5 h7]
        obtain ⟨l, hl⟩ := ih (x + 1) 2 (vx_append_p_gap o (gap + 4))
        exact ⟨[(gap + 4) % 65536] ++ l, by
          rw [hl]
          simp [vx_append_p_gap]⟩
      · rw [sieveVXEmit_step_t7 pp x5 x7 vx yvx fuel x gap o hx h5 h7]
        obtain ⟨l, hl⟩ := ih (x + 1) 0 (vx_append_p_gap o (gap + 6))
        exact ⟨[(gap + 6) % 65536] ++ l, by
          rw [hl]
          simp [vx_append_p_gap]⟩
      · rw [sieveVXEmit_step_ff pp x5 x7 vx yvx fuel x gap o hx h5 h7]
        exact ih (x + 1) (gap + 6) o
    · exact ⟨[], by simp [sieveVXEmit, hx]⟩

/-- If some `x5` bit at index `x0` is set, the emission loop started at
`x ≤ x0` with an empty gap list emits a first gap between `gap + 4` and
`gap + 6*(x0 - x) + 4` (before truncation to 16 bits). -/
theorem sieveVXEmit_first (pp : Nat → Bool) (x5 x7 : Bitmap) (vx yvx x0 : Nat)
    (hx0 : bitmap_get_bit x5 x0 = true) (hx0vx : x0 ≤ vx) :
    ∀ (fuel x gap : Nat) (o : VX_OBJ), o.p_gaps = [] → x ≤ x0 → x0 < x + fuel →
    ∃ raw l, gap + 4 ≤ raw ∧ raw ≤ gap + 6 * (x0 - x) + 4 ∧
      (sieveVXEmit pp false x5 x7 vx yvx fuel x gap o).p_gaps = raw % 65536 :: l := by
  intro fuel
  induction fuel with
  | zero =>
    intro x gap o _ hxle hlt
    omega
  | succ fuel ih =>
    intro x gap o hempty hxle hlt
    have hxvx : x ≤ vx := le_trans hxle hx0vx
    rcases Bool.eq_false_or_eq_true (bitmap_get_bit x5 x) with h5 | h5
    · -- x5 bit set here: this iteration emits gap + 4
      rcases Bool.eq_false_or_eq_true (bitmap_get_bit x7 x) with h7 | h7
      · rw [sieveVXEmit_step_t5t7 pp x5 x7 vx yvx fuel x gap o hxvx h5 h7]
        obtain ⟨l, hl⟩ := sieveVXEmit_appends pp x5 x7 vx yvx fuel (x + 1) 0
          (vx_append_p_gap (vx_append_p_gap o (gap + 4)) 2)
        refine ⟨gap + 4, 2 % 65536 :: l, by omega, by omega, ?_⟩
        rw [hl]
        simp [vx_append_p_gap, hempty]
      · rw [sieveVXEmit_step_t5 pp x5 x7 vx yvx fuel x gap o hxvx h5 h7]
        obtain ⟨l, hl⟩ := sieveVXEmit_appends pp x5 x7 vx yvx fuel (x + 1) 2
          (vx_append_p_gap o (gap + 4))
        refine ⟨gap + 4, l, by omega, by omega, ?_⟩
        rw [hl]
        simp [vx_append_p_gap, hempty]
    · -- x5 bit clear here, so x < x0
      have hxlt : x < x0 := by
        rcases Nat.lt_or_ge x x0 with h | h
        · exact h
        · have hxx : x = x0 := by omega
          rw [hxx, hx0] at h5
          exact Bool.noConfusion h5
      rcases Bool.eq_false_or_eq_true (bitmap_get_bit x7 x) with h7 | h7
      · rw [sieveVXEmit_step_t7 pp x5 x7 vx yvx fuel x gap o hxvx h5 h7]
        obtain ⟨l, hl⟩ := sieveVXEmit_appends pp x5 x7 vx yvx fuel (x + 1) 0
          (vx_append_p_gap o (gap + 6))
        refine ⟨gap + 6, l, by omega, by omega, ?_⟩
        rw [hl]
        simp [vx_append_p_gap, hempty]
      · rw [sieveVXEmit_step_ff pp x5 x7 vx yvx fuel x gap o hxvx h5 h7]
        obtain ⟨raw, l, hr1, hr2, hr3⟩ := ih (x + 1) (gap + 6) o hempty (by omega) (by omega)
        exact ⟨raw, l, by omega, by omega, hr3⟩

/-- The head of the gap list `sieve_vx` emits for `y = 0`, `vx = VX6`:
some gap is emitted, and the first one lies between 22 and 3118. -/
theorem sieve_vx_vx6_y0_head : ∃ gs g t, sieve_vx_run 1616615 0 = some gs ∧
    gs = g :: t ∧ 22 ≤ g ∧ g ≤ 3118 := by
  obtain ⟨o, tl, hsieve, hshape, hsort, helem, htail⟩ := sieve_iZ_spec 1616615 (by norm_num)
  have hA : vx_assets_init 1616615 = some ⟨1616615, o,
      (construct_iZm_segment 1616615 (bitmap_create (1616615 + 10))
        (bitmap_create (1616615 + 10))).1,
      (construct_iZm_segment 1616615 (bitmap_create (1616615 + 10))
        (bitmap_create (1616615 + 10))).2⟩ := by
    unfold vx_assets_init
    rw [hsieve]
    rfl
  have hrun : sieve_vx_run 1616615 0 = some ((sieve_vx probable_prime (vx_init 1616615 0)
      ⟨1616615, o,
        (construct_iZm_segment 1616615 (bitmap_create (1616615 + 10))
          (bitmap_create (1616615 + 10))).1,
        (construct_iZm_segment 1616615 (bitmap_create (1616615 + 10))
          (bitmap_create (1616615 + 10))).2⟩).p_gaps) := by
    unfold sieve_vx_run
    rw [hA]
    rfl
  have h0 : sieve_vx probable_prime (vx_init 1616615 0)
      ⟨1616615, o,
        (construct_iZm_segment 1616615 (bitmap_create (1616615 + 10))
          (bitmap_create (1616615 + 10))).1,
        (construct_iZm_segment 1616615 (bitmap_create (1616615 + 10))
          (bitmap_create (1616615 + 10))).2⟩ =
      sieveVXEmit probable_prime (decide (1616615 < isqrt (iZ ((0 + 1) * 1616615) 1)))
        (sieveVXMark 1616615 (isqrt (iZ ((0 + 1) * 1616615) 1))
          (decide (1616615 < isqrt (iZ ((0 + 1) * 1616615) 1))) 0
          (o.p_array.drop 2)
          ((construct_iZm_segment 1616615 (bitmap_create (1616615 + 10))
             (bitmap_create (1616615 + 10))).1,
           (construct_iZm_segment 1616615 (bitmap_create (1616615 + 10))
             (bitmap_create (1616615 + 10))).2)).1
        (sieveVXMark 1616615 (isqrt (iZ ((0 + 1) * 1616615) 1))
          (decide (1616615 < isqrt (iZ ((0 + 1) * 1616615) 1))) 0
          (o.p_array.drop 2)
          ((construct_iZm_segment 1616615 (bitmap_create (1616615 + 10))
             (bitmap_create (1616615 + 10))).1,
           (construct_iZm_segment 1616615 (bitmap_create (1616615 + 10))
             (bitmap_create (1616615 + 10))).2)).2
        1616615 (0 * 1616615) 1616615 1 0 (vx_init 1616615 0) := rfl
  have hrl : isqrt (iZ ((0 + 1) * 1616615) 1) = 3114 := by
    have hiz : iZ ((0 + 1) * 1616615) 1 = 9699691 := by
      rw [show (0 + 1) * 1616615 = 1616615 from rfl, iZ_pos_one]
    rw [hiz, isqrt_eq]
    have h1 : 3114 ≤ Nat.sqrt 9699691 := Nat.le_sqrt.mpr (by norm_num)
    have h2 : Nat.sqrt 9699691 < 3115 := Nat.sqrt_lt.mpr (by norm_num)
    omega
  rw [hrl] at h0
  have hlarge : decide (1616615 < (3114 : Nat)) = false := rfl
  rw [hlarge, Nat.zero_mul] at h0
  -- facts about the pre-sieved base pattern
  have hdrop : o.p_array.drop 2 = tl := by
    rw [hshape]
    rfl
  have hl : ∀ p ∈ o.p_array.drop 2, Nat.Prime p ∧ 5 ≤ p := by
    rw [hdrop]
    intro p hp
    have hmem : p ∈ o.p_array := by
      rw [hshape]
      exact List.mem_cons_of_mem _ (List.mem_cons_of_mem _ hp)
    obtain ⟨x, hx1, hor⟩ := htail p hp
    exact ⟨(helem p hmem).2, by omega⟩
  have h3119 : Nat.Prime 3119 := by norm_num
  have hnd1 : ∀ p, Nat.Prime p → p ≤ 3114 →
      ¬ (p : Int) ∣ (6 * (((0 : Nat) : Int) * (1616615 : Nat) + ((520 : Nat) : Int)) +
        (-1)) := by
    intro p hp hple hdvd
    have hval : (6 * (((0 : Nat) : Int) * (1616615 : Nat) + ((520 : Nat) : Int)) + (-1)) =
        ((3119 : Nat) : Int) := by norm_num
    rw [hval] at hdvd
    have hd3 : p ∣ 3119 := Int.natCast_dvd_natCast.mp hdvd
    rcases (Nat.Prime.eq_one_or_self_of_dvd h3119 p hd3) with h | h
    · exact absurd h hp.ne_one
    · omega
  have hb520 : bitmap_get_bit
      ((construct_iZm_segment 1616615 (bitmap_create (1616615 + 10))
        (bitmap_create (1616615 + 10))).1) 520 = true := by decide
  have hbit520 : bitmap_get_bit
      (sieveVXMark 1616615 3114 false 0 (o.p_array.drop 2)
        ((construct_iZm_segment 1616615 (bitmap_create (1616615 + 10))
           (bitmap_create (1616615 + 10))).1,
         (construct_iZm_segment 1616615 (bitmap_create (1616615 + 10))
           (bitmap_create (1616615 + 10))).2)).1 520 = true :=
    sieveVXMark_keep1 1616615 3114 0 520 hnd1 (o.p_array.drop 2) hl _ hb520
  have hb5s : ∀ j, j = 1 ∨ j = 2 ∨ j = 3 → bitmap_get_bit
      (sieveVXMark 1616615 3114 false 0 (o.p_array.drop 2)
        ((construct_iZm_segment 1616615 (bitmap_create (1616615 + 10))
           (bitmap_create (1616615 + 10))).1,
         (construct_iZm_segment 1616615 (bitmap_create (1616615 + 10))
           (bitmap_create (1616615 + 10))).2)).1 j = false := by
    intro j hj
    apply sieveVXMark_mono1
    rcases hj with rfl | rfl | rfl
    · decide
    · decide
    · decide
  have hb7s : ∀ j, j = 1 ∨ j = 2 ∨ j = 3 → bitmap_get_bit
      (sieveVXMark 1616615 3114 false 0 (o.p_array.drop 2)
        ((construct_iZm_segment 1616615 (bitmap_create (1616615 + 10))
           (bitmap_create (1616615 + 10))).1,
         (construct_iZm_segment 1616615 (bitmap_create (1616615 + 10))
           (bitmap_create (1616615 + 10))).2)).2 j = false := by
    intro j hj
    apply sieveVXMark_mono2
    rcases hj with rfl | rfl | rfl
    · decide
    · decide
    · decide
  -- walk the first three (empty) emission iterations, then find the head
  have hch1 := sieveVXEmit_step_ff probable_prime _ _ 1616615 0 1616614 1 0
    (vx_init 1616615 0) (by norm_num) (hb5s 1 (by norm_num)) (hb7s 1 (by norm_num))
  have hch2 := sieveVXEmit_step_ff probable_prime _ _ 1616615 0 1616613 2 6
    (vx_init 1616615 0) (by norm_num) (hb5s 2 (by norm_num)) (hb7s 2 (by norm_num))
  have hch3 := sieveVXEmit_step_ff probable_prime _ _ 1616615 0 1616612 3 12
    (vx_init 1616615 0) (by norm_num) (hb5s 3 (by norm_num)) (hb7s 3 (by norm_num))
  norm_num at hch1 hch2 hch3
  obtain ⟨raw, l, hr1, hr2, hr3⟩ := sieveVXEmit_first probable_prime _ _ 1616615 0 520
    hbit520 (by norm_num) 1616612 4 18 (vx_init 1616615 0) rfl (by norm_num) (by norm_num)
  have hraw3118 : raw ≤ 3118 := by omega
  have hrawmod : raw % 65536 = raw := Nat.mod_eq_of_lt (by omega)
  rw [hrawmod] at hr3
  refine ⟨raw :: l, raw, l, ?_, rfl, by omega, hraw3118⟩
  rw [hrun, h0, hch1, hch2, hch3, hr3]

/-- Claim C7 (counterexample): running `sieve_vx` with `y = "0"` and
`vx = 1,616,615` does not produce the gap list prefix `4, 2, 4, 2, 4` the spec
table S4 states: the primes 11, 13, 17, 19 divide `vx` and are pre-cleared
from the base pattern, so they are never emitted. -/
theorem C7_first_gaps_not_4_2_4_2_4 :
    (sieve_vx_run 1616615 0).map (fun l => l.take 5) ≠ some [4, 2, 4, 2, 4] := by
  obtain ⟨gs, g, t, hrun, hcons, h22, _⟩ := sieve_vx_vx6_y0_head
  intro hcontra
  rw [hrun, hcons] at hcontra
  simp only [Option.map_some'] at hcontra
  have hcontra2 : (g :: t).take 5 = [4, 2, 4, 2, 4] := Option.some.inj hcontra
  have h5 : ((g :: t).take 5).head? = some g := rfl
  rw [hcontra2] at h5
  have hg : g = 4 := (Option.some.inj h5).symm
  omega

/-- Claim C7 (amended): running `sieve_vx` with `y = "0"` and `vx = 1,616,615`
emits a gap list whose first gap is at least 22 (in fact the walk starts only
above `root_limit`): the primes 5, 7, 11, 13, 17, 19 divide `vx`, are
pre-cleared from the base pattern, and are never emitted, so the first five
gaps are in particular not `4, 2, 4, 2, 4`. -/
theorem C7_first_gap_at_least_22 :
    ∃ gs g t, sieve_vx_run 1616615 0 = some gs ∧ gs = g :: t ∧ 22 ≤ g := by
  obtain ⟨gs, g, t, hrun, hcons, h22, _⟩ := sieve_vx_vx6_y0_head
  exact ⟨gs, g, t, hrun, hcons, h22⟩

end IZLib
